import Mathlib

/-! # Port scanner: port-spec parser, scan engine and batch coordinator

A shallow embedding of `main.go`:

* `parsePorts` (and the identical method `PortScanner.parsePorts`), together with the
  pieces of the Go standard library it calls (`strings.Split`, `strings.TrimSpace`,
  `strings.Contains`, `strconv.Atoi`);
* `scanPortsDirectly` (the scan engine), `scanPortsInBatches` (the batch coordinator)
  and `ScanPortsWithProgress`, as functions of an explicit environment that fixes
  the order in which probes finish and what each dial returns.

Modelling choices:

* Go strings are lists of Unicode characters. The parser only tells apart digits, signs,
  white space, `,` and `-`, all ASCII, so a byte outside valid UTF-8 behaves like any other
  character.
* Go `int` is 64 bits wide: `Int`, with the two's-complement wrap written out where the
  source can overflow (the counter of the range loop) and the range check of `strconv.Atoi`.
  Lengths of slices and counters bounded by them are `Nat`.
* A Go pair `(value, err)` is a pair whose second component is `none` for a nil error.
* The range loop of `parsePorts` need not end, so the parser takes fuel; `none` means the
  fuel ran out. The scan engine is total.
* The probe tasks of the scan engine run concurrently; what the results and the progress
  messages depend on is the order in which the tasks go through the critical section and
  what each dial returned. Both are read from an environment `Env`, over which the theorems
  quantify; `scanPortsDirectly_any_order` shows that every order is the order of some
  environment. Clock readings and the floating-point percentages of the batch coordinator
  are values of the environment too.
* Messages offered to `session.Progress` are recorded in the order offered; whether the
  channel had room for them is not modelled.
-/

set_option autoImplicit false

namespace PortScan

/-! ## Go runtime -/

/-- Largest value of a 64-bit Go `int`. -/
def maxInt : Int := 2 ^ 63 - 1

/-- Smallest value of a 64-bit Go `int`. -/
def minInt : Int := -(2 ^ 63)

/-- Result of a Go `int` operation, wrapped into the 64-bit two's-complement range. -/
def wrapInt (x : Int) : Int := (x + 2 ^ 63) % 2 ^ 64 - 2 ^ 63

/-- Go `unicode.IsSpace`: the Unicode White_Space code points. -/
def isSpace (c : Char) : Bool :=
  let n := c.toNat
  (9 ≤ n && n ≤ 13) || n = 32 || n = 0x85 || n = 0xA0 || n = 0x1680 ||
    (0x2000 ≤ n && n ≤ 0x200A) || n = 0x2028 || n = 0x2029 || n = 0x202F ||
    n = 0x205F || n = 0x3000

/-- Go `strings.TrimSpace`: drop leading and trailing white space. -/
def TrimSpace (s : List Char) : List Char :=
  ((s.dropWhile isSpace).reverse.dropWhile isSpace).reverse

/-- Go `strings.Contains` for a one-character substring. -/
def Contains (s : List Char) (sep : Char) : Bool := s.any (fun c => c == sep)

/-- Go `strings.Split` for a one-character separator: the pieces between successive
separators, one more piece than there are separators. -/
def Split : List Char → Char → List (List Char)
  | [], _ => [[]]
  | c :: cs, sep =>
    if c = sep then [] :: Split cs sep
    else
      match Split cs sep with
      | [] => [[c]]
      | piece :: pieces => (c :: piece) :: pieces

/-- An ASCII decimal digit, `'0'` to `'9'` (the test `ch - '0' <= 9` of `strconv`). -/
def isDigit (c : Char) : Bool := 48 ≤ c.toNat && c.toNat ≤ 57

/-- Value of a run of ASCII digits, most significant first (the accumulation loop of
`strconv.ParseUint` in base 10). -/
def digitsValue (ds : List Char) : Nat :=
  ds.foldl (fun n ch => n * 10 + (ch.toNat - 48)) 0

/-- Go `strconv.Atoi` on a 64-bit target: an optional sign, then one or more ASCII
digits; `none` is a syntax error or a value out of the range of `int`. -/
def Atoi (s : List Char) : Option Int :=
  match s with
  | [] => none
  | c :: rest =>
    let neg := c = '-'
    let ds := if c = '-' ∨ c = '+' then rest else s
    if ds = [] then none
    else if ds.all isDigit then
      let un := digitsValue ds
      if neg then
        if un > 2 ^ 63 then none else some (-(un : Int))
      else
        if un ≥ 2 ^ 63 then none else some (un : Int)
    else none

/-! ## Port spec parser -/

/-- The fixed sequence returned for the spec `"all"`. -/
def commonPorts : List Int :=
  [21, 22, 23, 25, 53, 80, 110, 143, 443, 993, 995, 3389, 5432, 3306, 6379, 27017]

/-- The loop `for i := start; i <= end; i++ { ports = append(ports, i) }`.
`i++` wraps at the top of `int`; `none` means the fuel ran out before the loop ended. -/
def rangeLoop : Nat → Int → Int → List Int → Option (List Int)
  | 0, _, _, _ => none
  | fuel + 1, i, stop, ports =>
    if i ≤ stop then rangeLoop fuel (wrapInt (i + 1)) stop (ports ++ [i])
    else some ports

/-- The loop `for _, part := range parts` of `parsePorts`, with the ports appended so far.
The result is Go's pair `(ports, err)`; `none` means a range loop ran out of fuel. -/
def parseLoop (fuel : Nat) : List (List Char) → List Int → Option (List Int × Option String)
  | [], ports => some (ports, none)
  | part :: parts, ports =>
    let part := TrimSpace part
    if Contains part '-' then
      match Split part '-' with
      | [r0, r1] =>
        match Atoi (TrimSpace r0) with
        | none => some ([], some ("无效的起始端口: " ++ String.mk r0))
        | some start =>
          match Atoi (TrimSpace r1) with
          | none => some ([], some ("无效的结束端口: " ++ String.mk r1))
          | some stop =>
            if start > stop then
              some ([], some ("起始端口不能大于结束端口: " ++ String.mk part))
            else
              match rangeLoop fuel start stop ports with
              | none => none
              | some ports => parseLoop fuel parts ports
      | _ => some ([], some ("无效的端口范围: " ++ String.mk part))
    else
      match Atoi part with
      | none => some ([], some ("无效的端口号: " ++ String.mk part))
      | some port => parseLoop fuel parts (ports ++ [port])

/-- The function `parsePorts`. -/
def parsePorts (fuel : Nat) (portStr : String) : Option (List Int × Option String) :=
  if portStr = "all" then some (commonPorts, none)
  else parseLoop fuel (Split portStr.toList ',') []

/-- The method `(ps *PortScanner) parsePorts`; its body is the same text as `parsePorts`
and it does not read the receiver. -/
def PortScanner.parsePorts (fuel : Nat) (portStr : String) :
    Option (List Int × Option String) :=
  if portStr = "all" then some (commonPorts, none)
  else parseLoop fuel (Split portStr.toList ',') []

/-! ## The port spec as the specification describes it -/

/-- What a well-formed segment denotes: a single port or an inclusive range. -/
inductive Segment where
  | single (n : Nat)
  | range (a b : Nat)
  deriving DecidableEq, Repr

/-- The ports a segment stands for: `[n]`, or `[a, a+1, ..., b]`. -/
def Segment.expand : Segment → List Int
  | .single n => [(n : Int)]
  | .range a b => List.map (fun k : Nat => (k : Int)) (List.range' a (b + 1 - a))

/-- A segment whose numbers fit a Go `int` and whose range, if any, ends below the
largest `int`. -/
def Segment.fits : Segment → Prop
  | .single n => (n : Int) ≤ maxInt
  | .range _ b => (b : Int) < maxInt

instance (d : Segment) : Decidable d.fits := by
  cases d <;> simp only [Segment.fits] <;> infer_instance

/-- Reading of a segment by the specification's words: after trimming, either a run of
decimal digits `n`, or `a-b` with two runs of decimal digits and `a ≤ b`. -/
def specSegment (seg : List Char) : Option Segment :=
  let t := TrimSpace seg
  let x := t.takeWhile isDigit
  match t.dropWhile isDigit with
  | [] => if t = [] then none else some (.single (digitsValue t))
  | c :: y =>
    if c = '-' ∧ x ≠ [] ∧ y ≠ [] ∧ y.all isDigit = true ∧ digitsValue x ≤ digitsValue y then
      some (.range (digitsValue x) (digitsValue y))
    else none

/-- Expansion of a segment by the specification's words; empty when it is not well-formed. -/
def specExpand (seg : List Char) : List Int :=
  match specSegment seg with
  | some d => d.expand
  | none => []

/-- A segment is well-formed in the specification's sense. -/
def specWellFormed (seg : List Char) : Prop := (specSegment seg).isSome = true

instance (seg : List Char) : Decidable (specWellFormed seg) := by
  unfold specWellFormed; infer_instance

/-- A segment is well-formed and its numbers fit (`Segment.fits`). -/
def specFits (seg : List Char) : Prop :=
  match specSegment seg with
  | some d => d.fits
  | none => False

instance (seg : List Char) : Decidable (specFits seg) := by
  unfold specFits; cases specSegment seg <;> simp only <;> infer_instance

/-- A segment that is malformed in the specification's sense: without `-` and not an
integer, or with `-` and not splitting into exactly two parts, or a range with a non-numeric
endpoint, or a range with start > end. "Integer" and "numeric" are what `strconv.Atoi`
accepts. -/
def specMalformed (seg : List Char) : Bool :=
  let t := TrimSpace seg
  if Contains t '-' then
    match Split t '-' with
    | [x, y] =>
      match Atoi (TrimSpace x), Atoi (TrimSpace y) with
      | some a, some b => decide (a > b)
      | _, _ => true
    | _ => true
  else (Atoi t).isNone

/-! ## Scan results and progress messages -/

/-- The struct `ScanResult`; `Error` is empty when the dial succeeded. -/
structure ScanResult where
  Host : String
  Port : Int
  Open : Bool
  Service : String
  Error : String
  deriving DecidableEq, Repr

/-- The struct `ProgressMessage` (field `Type` is `MsgType` here). `Completed`, `Total` and
`OpenPorts` hold counts of slice elements, never negative and never near the top of `int`. -/
structure ProgressMessage where
  MsgType : String
  Completed : Nat
  Total : Nat
  Percent : Int
  OpenPorts : Nat
  Speed : Int
  BatchInfo : String
  deriving DecidableEq, Repr

/-- What the program does not decide: the scheduler, the network and the clock.
`run` numbers the calls of `scanPortsDirectly` within one scan (the chunk index, 0 for a
direct scan) and `k` counts the probes of that call that have already finished. -/
structure Env where
  /-- Which of the probes still pending is the next to enter the critical section
  (an index into the pending ports, taken modulo their number). -/
  pick : (run k : Nat) → Nat
  /-- Result of `net.DialTimeout` for that probe: `none` when the connection was made,
  else the text of the error. -/
  dial : (run k : Nat) → (port : Int) → Option String
  /-- Value of `int(float64(completed) / elapsed)` read off the clock inside the critical
  section (0 when no time has elapsed). -/
  speed : (run k : Nat) → Int
  /-- Value of `int(float64(completed) / elapsed)` after chunk `run`. -/
  batchSpeed : (run : Nat) → Int
  /-- Value of the floating-point expression `int(float64(x) / float64(total) * 100)`. -/
  floatPercent : (x total : Nat) → Int

/-- The method `getServiceName`. -/
def getServiceName (port : Int) : String :=
  if port = 21 then "FTP"
  else if port = 22 then "SSH"
  else if port = 23 then "Telnet"
  else if port = 25 then "SMTP"
  else if port = 53 then "DNS"
  else if port = 80 then "HTTP"
  else if port = 110 then "POP3"
  else if port = 143 then "IMAP"
  else if port = 443 then "HTTPS"
  else if port = 993 then "IMAPS"
  else if port = 995 then "POP3S"
  else if port = 3389 then "RDP"
  else if port = 5432 then "PostgreSQL"
  else if port = 3306 then "MySQL"
  else if port = 6379 then "Redis"
  else if port = 27017 then "MongoDB"
  else "Unknown"

/-- The method `scanPort`, given what `net.DialTimeout` returned. -/
def scanPort (dialed : Option String) (host : String) (port : Int) : ScanResult :=
  match dialed with
  | some err =>
    { Host := host, Port := port, Open := false, Service := getServiceName port, Error := err }
  | none =>
    { Host := host, Port := port, Open := true, Service := getServiceName port, Error := "" }

/-! ## Scan engine -/

/-- The variables of `scanPortsDirectly` guarded by `mu`, and the messages offered to
`session.Progress` so far, oldest first. -/
structure EngineState where
  results : List ScanResult
  completed : Nat
  openPorts : Nat
  sent : List ProgressMessage
  deriving DecidableEq, Repr

/-- The critical section of a probe task, between `mu.Lock()` and `mu.Unlock()`.
`present` is `exists && session != nil`. -/
def criticalSection (present : Bool) (total : Nat) (speed : Int) (st : EngineState)
    (result : ScanResult) : EngineState :=
  let results := st.results ++ [result]
  let completed := st.completed + 1
  let openPorts := if result.Open then st.openPorts + 1 else st.openPorts
  let percent := (completed * 100) / total
  let updateFreq := if total > 5000 then 100 else 50
  if present = true ∧ (completed % updateFreq = 0 ∨ completed = total ∨
      (completed < 1000 ∧ completed % 10 = 0)) then
    { results := results, completed := completed, openPorts := openPorts,
      sent := st.sent ++ [{ MsgType := "progress", Completed := completed, Total := total,
                            Percent := (percent : Int), OpenPorts := openPorts,
                            Speed := speed, BatchInfo := "" }] }
  else
    { results := results, completed := completed, openPorts := openPorts, sent := st.sent }

/-- The probe tasks of `scanPortsDirectly`, run to completion: `n` tasks are still to
finish, `pending` holds their ports; each turn one of them, chosen by the scheduler, dials
and goes through the critical section. -/
def engineLoop (env : Env) (run : Nat) (host : String) (present : Bool) (total : Nat) :
    Nat → List Int → EngineState → EngineState
  | 0, _, st => st
  | n + 1, pending, st =>
    let k := st.completed
    let i := env.pick run k % pending.length
    match pending.get? i with
    | none => st
    | some p =>
      let result := scanPort (env.dial run k p) host p
      engineLoop env run host present total n (pending.eraseIdx i)
        (criticalSection present total (env.speed run k) st result)

/-- The capacity chosen for the channel `semaphore`. -/
def concurrency (n : Nat) : Nat :=
  let c := 1000
  let c := if n > 10000 then 500 else c
  let c := if n > 50000 then 200 else c
  c

/-- What a call of `scanPortsDirectly` leaves behind: the returned results, the messages
offered to the session, and the capacity of the channel `semaphore`. -/
structure EngineRun where
  results : List ScanResult
  sent : List ProgressMessage
  semaphoreCap : Nat
  deriving DecidableEq, Repr

/-- The method `scanPortsDirectly`. Both arms of its final `select` wait for every task, so
it returns once all of them have been through the critical section. -/
def scanPortsDirectly (env : Env) (run : Nat) (host : String) (ports : List Int)
    (present : Bool) : EngineRun :=
  let total := ports.length
  let st := engineLoop env run host present total total ports
    { results := [], completed := 0, openPorts := 0, sent := [] }
  { results := st.results, sent := st.sent, semaphoreCap := concurrency ports.length }

/-! ## Batch coordinator -/

/-- Go's slice expression `ports[start:stop]`. -/
def slice (ports : List Int) (start stop : Nat) : List Int :=
  (ports.drop start).take (stop - start)

/-- The text `fmt.Sprintf("批次 %d/%d", batchNum, totalBatches)`. -/
def batchLabel (batchNum totalBatches : Nat) : String :=
  "批次 " ++ toString batchNum ++ "/" ++ toString totalBatches

/-- The variables of `scanPortsInBatches` across its loop: `allResults`, the messages
offered to the session so far, and the chunks handed to `scanPortsDirectly` so far. -/
structure BatchState where
  allResults : List ScanResult
  sent : List ProgressMessage
  chunks : List (List Int)
  deriving DecidableEq, Repr

/-- The message offered before a chunk is scanned. -/
def batchStartMsg (env : Env) (total totalBatches batchIndex start : Nat)
    (allResults : List ScanResult) : ProgressMessage :=
  { MsgType := "progress", Completed := start, Total := total,
    Percent := env.floatPercent start total, OpenPorts := allResults.length, Speed := 0,
    BatchInfo := batchLabel (batchIndex + 1) totalBatches }

/-- The message offered after a chunk has been scanned. -/
def batchDoneMsg (env : Env) (total totalBatches batchIndex stop : Nat)
    (allResults : List ScanResult) : ProgressMessage :=
  { MsgType := "progress", Completed := stop, Total := total,
    Percent := env.floatPercent stop total, OpenPorts := allResults.length,
    Speed := env.batchSpeed batchIndex, BatchInfo := batchLabel (batchIndex + 1) totalBatches }

/-- One turn of the loop `for batchIndex := 0; batchIndex < totalBatches; batchIndex++`. -/
def batchBody (env : Env) (host : String) (ports : List Int) (present : Bool)
    (total batchSize totalBatches : Nat) (st : BatchState) (batchIndex : Nat) : BatchState :=
  let start := batchIndex * batchSize
  let stop := if start + batchSize > total then total else start + batchSize
  let batchPorts := slice ports start stop
  let sent1 :=
    if present = true then
      st.sent ++ [batchStartMsg env total totalBatches batchIndex start st.allResults]
    else st.sent
  let batchResults := scanPortsDirectly env batchIndex host batchPorts present
  let allResults := st.allResults ++ batchResults.results
  let sent2 := sent1 ++ batchResults.sent
  let sent3 :=
    if present = true then
      sent2 ++ [batchDoneMsg env total totalBatches batchIndex stop allResults]
    else sent2
  { allResults := allResults, sent := sent3, chunks := st.chunks ++ [batchPorts] }

/-- The method `scanPortsInBatches`. -/
def scanPortsInBatches (env : Env) (host : String) (ports : List Int) (present : Bool) :
    BatchState :=
  let total := ports.length
  let batchSize := 1000
  let totalBatches := (total + batchSize - 1) / batchSize
  (List.range totalBatches).foldl (batchBody env host ports present total batchSize totalBatches)
    { allResults := [], sent := [], chunks := [] }

/-- What a scan leaves behind: the returned results and the messages offered to the
session, oldest first. -/
structure ScanRun where
  results : List ScanResult
  sent : List ProgressMessage
  deriving DecidableEq, Repr

/-- The method `ScanPortsWithProgress`; `present` says whether the session looked up under
`sessionID` exists. -/
def ScanPortsWithProgress (env : Env) (host : String) (ports : List Int) (present : Bool) :
    ScanRun :=
  let total := ports.length
  if total > 1000 then
    let r := scanPortsInBatches env host ports present
    { results := r.allResults, sent := r.sent }
  else
    let r := scanPortsDirectly env 0 host ports present
    { results := r.results, sent := r.sent }

/-- An environment in which probes finish in submission order and every dial is refused. -/
def Env.allRefused : Env :=
  { pick := fun _ _ => 0, dial := fun _ _ _ => some "connection refused",
    speed := fun _ _ => 0, batchSpeed := fun _ => 0, floatPercent := fun x total => x * 100 / total }

/-- The state of `scanPortsInBatches` after the first `k` turns of its loop. -/
def batchPrefix (env : Env) (host : String) (ports : List Int) (present : Bool) (k : Nat) :
    BatchState :=
  (List.range k).foldl
    (batchBody env host ports present ports.length 1000 ((ports.length + 1000 - 1) / 1000))
    { allResults := [], sent := [], chunks := [] }

/-- The messages offered during turn `i` of the loop of `scanPortsInBatches`: the start
message, those of the scan engine for the chunk, and the done message. -/
def batchBlock (env : Env) (host : String) (ports : List Int) (present : Bool) (i : Nat) :
    List ProgressMessage :=
  let total := ports.length
  let totalBatches := (total + 1000 - 1) / 1000
  let run := scanPortsDirectly env i host ((ports.drop (i * 1000)).take 1000) present
  let before := (batchPrefix env host ports present i).allResults
  (if present = true then [batchStartMsg env total totalBatches i (i * 1000) before] else [])
    ++ run.sent
    ++ (if present = true then
          [batchDoneMsg env total totalBatches i
            (if i * 1000 + 1000 > total then total else i * 1000 + 1000) (before ++ run.results)]
        else [])

/-- A message of the batch coordinator: it carries a batch label. -/
def isBoundary (m : ProgressMessage) : Bool := m.BatchInfo != ""

/-- The ports 1, 2, ..., 1001 (what `parsePorts` returns for `"1-1001"`): the shortest kind of
scan that is split into batches. -/
def ports1001 : List Int := List.map (fun k : Nat => (k : Int)) (List.range' 1 1001)

/-- A scheduler under which the probes finish in the order `target`: the index, among the
ports still pending, of the next port of `target`. -/
def scheduleFor : List Int → List Int → List Nat
  | _, [] => []
  | pending, t :: ts => pending.indexOf t :: scheduleFor (pending.erase t) ts

/-! ## Progress sampling as the specification describes it -/

/-- The stride of the specification: 10 for the first 1000 completions, otherwise 100 when
`total > 5000` and 50 when not. -/
def specStride (c total : Nat) : Nat :=
  if c < 1000 then 10 else if total > 5000 then 100 else 50

/-- The specification's rule: an event is offered for completion count `c` when `c` is the
total or a multiple of the stride. -/
def specOffered (c total : Nat) : Bool :=
  decide (c = total ∨ c % specStride c total = 0)

/-! ## Arithmetic of `int` -/

theorem wrapInt_of_range {x : Int} (h1 : minInt ≤ x) (h2 : x ≤ maxInt) : wrapInt x = x := by
  unfold wrapInt
  unfold minInt at h1
  unfold maxInt at h2
  norm_num at h1 h2 ⊢
  omega

theorem wrapInt_bounds (x : Int) : minInt ≤ wrapInt x ∧ wrapInt x ≤ maxInt := by
  unfold wrapInt minInt maxInt
  norm_num
  omega

/-! ## The range loop -/

theorem rangeLoop_range' (fuel : Nat) :
    ∀ (a b : Nat) (acc : List Int), (b : Int) < maxInt → b + 1 - a < fuel →
      rangeLoop fuel a b acc
        = some (acc ++ List.map (fun k : Nat => (k : Int)) (List.range' a (b + 1 - a))) := by
  induction fuel with
  | zero => intro a b acc _ h; omega
  | succ n ih =>
    intro a b acc hb hf
    rw [rangeLoop]
    by_cases hab : (a : Int) ≤ b
    · rw [if_pos hab]
      have hw : wrapInt ((a : Int) + 1) = ((a + 1 : Nat) : Int) := by
        rw [wrapInt_of_range]
        · push_cast; rfl
        · unfold minInt; norm_num; omega
        · omega
      rw [hw, ih (a + 1) b _ hb (by omega)]
      have hlen : b + 1 - a = (b + 1 - (a + 1)) + 1 := by omega
      rw [hlen, List.range'_succ]
      simp
    · rw [if_neg hab]
      have hlen : b + 1 - a = 0 := by omega
      simp [hlen]

theorem rangeLoop_maxInt (fuel : Nat) :
    ∀ (i : Int) (acc : List Int), i ≤ maxInt → rangeLoop fuel i maxInt acc = none := by
  induction fuel with
  | zero => intro i acc _; rfl
  | succ n ih =>
    intro i acc h2
    rw [rangeLoop, if_pos h2]
    exact ih _ _ (wrapInt_bounds _).2

theorem rangeLoop_nonneg (fuel : Nat) :
    ∀ (i stop : Int) (acc r : List Int), 0 ≤ i → stop ≤ maxInt → (∀ p ∈ acc, (0 : Int) ≤ p) →
      rangeLoop fuel i stop acc = some r → ∀ p ∈ r, (0 : Int) ≤ p := by
  induction fuel with
  | zero => intro i stop acc r _ _ _ h; simp [rangeLoop] at h
  | succ n ih =>
    intro i stop acc r hi hs hacc h
    rw [rangeLoop] at h
    by_cases hle : i ≤ stop
    · rw [if_pos hle] at h
      by_cases hmax : i = maxInt
      · have hstop : stop = maxInt := by omega
        rw [hstop, rangeLoop_maxInt n _ _ (wrapInt_bounds _).2] at h
        exact absurd h (by simp)
      · have hw : wrapInt (i + 1) = i + 1 := by
          apply wrapInt_of_range
          · unfold minInt; norm_num; omega
          · omega
        rw [hw] at h
        refine ih (i + 1) stop (acc ++ [i]) r (by omega) hs ?_ h
        intro p hp
        rcases List.mem_append.1 hp with hp | hp
        · exact hacc p hp
        · have : p = i := by simpa using hp
          omega
    · rw [if_neg hle] at h
      have : acc = r := by simpa using h
      subst this
      exact hacc

/-! ## Characters, trimming and splitting -/

theorem isDigit_toNat {c : Char} (h : isDigit c = true) : 48 ≤ c.toNat ∧ c.toNat ≤ 57 := by
  simpa [isDigit] using h

theorem isDigit_ne_minus {c : Char} (h : isDigit c = true) : c ≠ '-' := by
  rintro rfl; exact absurd h (by decide)

theorem isDigit_ne_plus {c : Char} (h : isDigit c = true) : c ≠ '+' := by
  rintro rfl; exact absurd h (by decide)

theorem isDigit_not_space {c : Char} (h : isDigit c = true) : isSpace c = false := by
  have hc := isDigit_toNat h
  simp only [isSpace, Bool.or_eq_false_iff, Bool.and_eq_false_iff, decide_eq_false_iff_not]
  omega

theorem dropWhile_of_no_match {p : Char → Bool} :
    ∀ {s : List Char}, (∀ c ∈ s, p c = false) → s.dropWhile p = s
  | [], _ => rfl
  | c :: cs, h => by simp [List.dropWhile, h c (List.mem_cons_self c cs)]

theorem TrimSpace_of_no_space {s : List Char} (h : ∀ c ∈ s, isSpace c = false) :
    TrimSpace s = s := by
  unfold TrimSpace
  rw [dropWhile_of_no_match h, dropWhile_of_no_match, List.reverse_reverse]
  intro c hc
  exact h c (List.mem_reverse.1 hc)

theorem mem_of_mem_TrimSpace {s : List Char} {c : Char} (h : c ∈ TrimSpace s) : c ∈ s := by
  unfold TrimSpace at h
  have h1 := (List.dropWhile_suffix isSpace).subset (List.mem_reverse.1 h)
  exact (List.dropWhile_suffix isSpace).subset (List.mem_reverse.1 h1)

theorem Contains_eq_false {s : List Char} {sep : Char} :
    Contains s sep = false ↔ ∀ c ∈ s, c ≠ sep := by
  simp [Contains]

theorem Contains_eq_true {s : List Char} {sep : Char} :
    Contains s sep = true ↔ sep ∈ s := by
  simp [Contains]

theorem Contains_TrimSpace {s : List Char} {sep : Char} (h : Contains s sep = false) :
    Contains (TrimSpace s) sep = false :=
  Contains_eq_false.2 fun c hc => Contains_eq_false.1 h c (mem_of_mem_TrimSpace hc)

theorem Split_ne_nil (s : List Char) (sep : Char) : Split s sep ≠ [] := by
  cases s with
  | nil => simp [Split]
  | cons c cs =>
    rw [Split]
    split
    · simp
    · split <;> simp

theorem Split_of_not_Contains :
    ∀ {s : List Char} {sep : Char}, Contains s sep = false → Split s sep = [s]
  | [], _, _ => rfl
  | c :: cs, sep, h => by
    have hc : c ≠ sep := Contains_eq_false.1 h c (List.mem_cons_self c cs)
    have hcs : Contains cs sep = false :=
      Contains_eq_false.2 fun d hd => Contains_eq_false.1 h d (List.mem_cons_of_mem c hd)
    rw [Split, if_neg hc, Split_of_not_Contains hcs]

theorem Split_append_sep :
    ∀ {x : List Char} (y : List Char) {sep : Char}, Contains x sep = false →
      Split (x ++ sep :: y) sep = x :: Split y sep
  | [], y, sep, _ => by simp [Split]
  | c :: cs, y, sep, h => by
    have hc : c ≠ sep := Contains_eq_false.1 h c (List.mem_cons_self c cs)
    have hcs : Contains cs sep = false :=
      Contains_eq_false.2 fun d hd => Contains_eq_false.1 h d (List.mem_cons_of_mem c hd)
    rw [List.cons_append, Split, if_neg hc, Split_append_sep y hcs]

theorem Split_piece_not_Contains :
    ∀ (s : List Char) (sep : Char), ∀ p ∈ Split s sep, Contains p sep = false
  | [], sep, p, hp => by
    have : p = [] := by simpa [Split] using hp
    subst this; rfl
  | c :: cs, sep, p, hp => by
    have ih := Split_piece_not_Contains cs sep
    rw [Split] at hp
    by_cases hc : c = sep
    · rw [if_pos hc] at hp
      rcases List.mem_cons.1 hp with h | h
      · subst h; rfl
      · exact ih p h
    · rw [if_neg hc] at hp
      cases hsp : Split cs sep with
      | nil => exact absurd hsp (Split_ne_nil cs sep)
      | cons piece pieces =>
        rw [hsp] at hp ih
        rcases List.mem_cons.1 hp with h | h
        · subst h
          have h1 := ih piece (List.mem_cons_self _ _)
          refine Contains_eq_false.2 fun d hd => ?_
          rcases List.mem_cons.1 hd with hd | hd
          · exact hd ▸ hc
          · exact Contains_eq_false.1 h1 d hd
        · exact ih p (List.mem_cons_of_mem _ h)

/-! ## `strconv.Atoi` -/

theorem Atoi_of_digits {s : List Char} (hne : s ≠ []) (hd : s.all isDigit = true) :
    Atoi s = if digitsValue s ≥ 2 ^ 63 then none else some (digitsValue s : Int) := by
  cases s with
  | nil => exact absurd rfl hne
  | cons c cs =>
    have hc : isDigit c = true := (List.all_eq_true.1 hd) c (List.mem_cons_self c cs)
    have h1 := isDigit_ne_minus hc
    have h2 := isDigit_ne_plus hc
    simp only [Atoi, h1, h2, or_self, if_false, hd, if_true, decide_False]
    simp

theorem Atoi_nonneg {s : List Char} {n : Int} (hs : Contains s '-' = false)
    (h : Atoi s = some n) : 0 ≤ n ∧ n ≤ maxInt := by
  cases s with
  | nil => simp [Atoi] at h
  | cons c cs =>
    have h1 : c ≠ '-' := Contains_eq_false.1 hs c (List.mem_cons_self c cs)
    simp only [Atoi, h1, false_or] at h
    generalize (if c = '+' then cs else c :: cs) = ds at h
    by_cases hds : ds = []
    · rw [if_pos hds] at h
      exact absurd h (by simp)
    · rw [if_neg hds] at h
      by_cases hall : ds.all isDigit = true
      · rw [if_pos hall, if_neg (fun hf : False => hf)] at h
        by_cases hlt : digitsValue ds ≥ 2 ^ 63
        · rw [if_pos hlt] at h
          exact absurd h (by simp)
        · rw [if_neg hlt] at h
          have hn : n = (digitsValue ds : Int) := (Option.some.inj h).symm
          have h3 : ((digitsValue ds : Nat) : Int) < 2 ^ 63 := by
            have : digitsValue ds < 2 ^ 63 := by omega
            exact_mod_cast this
          subst hn
          unfold maxInt
          constructor
          · exact Int.ofNat_nonneg _
          · omega
      · rw [if_neg hall] at h
        exact absurd h (by simp)

/-! ## One turn of the segment loop -/

theorem parseLoop_cons_single {fuel : Nat} {seg : List Char} {segs : List (List Char)}
    {acc : List Int} {p : Int} (hc : Contains (TrimSpace seg) '-' = false)
    (ha : Atoi (TrimSpace seg) = some p) :
    parseLoop fuel (seg :: segs) acc = parseLoop fuel segs (acc ++ [p]) := by
  rw [parseLoop]
  simp only [hc, ha, Bool.false_eq_true, if_false]

theorem parseLoop_cons_range {fuel : Nat} {seg r0 r1 : List Char} {segs : List (List Char)}
    {acc acc1 : List Int} {a b : Int} (hc : Contains (TrimSpace seg) '-' = true)
    (hs : Split (TrimSpace seg) '-' = [r0, r1]) (ha : Atoi (TrimSpace r0) = some a)
    (hb : Atoi (TrimSpace r1) = some b) (hab : a ≤ b)
    (hr : rangeLoop fuel a b acc = some acc1) :
    parseLoop fuel (seg :: segs) acc = parseLoop fuel segs acc1 := by
  rw [parseLoop]
  simp only [hc, hs, ha, hb, hr, if_true, gt_iff_lt, not_lt.2 hab, if_false]

theorem parseLoop_cons_diverge {fuel : Nat} {seg r0 r1 : List Char} {segs : List (List Char)}
    {acc : List Int} {a b : Int} (hc : Contains (TrimSpace seg) '-' = true)
    (hs : Split (TrimSpace seg) '-' = [r0, r1]) (ha : Atoi (TrimSpace r0) = some a)
    (hb : Atoi (TrimSpace r1) = some b) (hab : a ≤ b)
    (hr : rangeLoop fuel a b acc = none) :
    parseLoop fuel (seg :: segs) acc = none := by
  rw [parseLoop]
  simp only [hc, hs, ha, hb, hr, if_true, gt_iff_lt, not_lt.2 hab, if_false]

/-! ## Well-formed segments -/

theorem all_digits_no_minus {s : List Char} (h : s.all isDigit = true) :
    Contains s '-' = false :=
  Contains_eq_false.2 fun c hc => isDigit_ne_minus (List.all_eq_true.1 h c hc)

theorem all_digits_TrimSpace {s : List Char} (h : s.all isDigit = true) : TrimSpace s = s :=
  TrimSpace_of_no_space fun c hc => isDigit_not_space (List.all_eq_true.1 h c hc)

theorem specSegment_single {seg : List Char} {n : Nat}
    (h : specSegment seg = some (.single n)) :
    TrimSpace seg ≠ [] ∧ (TrimSpace seg).all isDigit = true ∧ n = digitsValue (TrimSpace seg) := by
  unfold specSegment at h
  simp only at h
  cases hd : (TrimSpace seg).dropWhile isDigit with
  | nil =>
    rw [hd] at h
    simp only at h
    by_cases ht : TrimSpace seg = []
    · rw [if_pos ht] at h; exact absurd h (by simp)
    · rw [if_neg ht] at h
      refine ⟨ht, ?_, ?_⟩
      · exact List.all_eq_true.2 (List.dropWhile_eq_nil_iff.1 hd)
      · have := Option.some.inj h
        injection this with this
        exact this.symm
  | cons c y =>
    rw [hd] at h
    simp only at h
    split at h
    · exact absurd (Option.some.inj h) (by simp)
    · exact absurd h (by simp)

theorem specSegment_range {seg : List Char} {a b : Nat}
    (h : specSegment seg = some (.range a b)) :
    ∃ x y, TrimSpace seg = x ++ '-' :: y ∧ x ≠ [] ∧ x.all isDigit = true ∧ y ≠ [] ∧
      y.all isDigit = true ∧ a = digitsValue x ∧ b = digitsValue y ∧ a ≤ b := by
  unfold specSegment at h
  simp only at h
  cases hd : (TrimSpace seg).dropWhile isDigit with
  | nil =>
    rw [hd] at h
    simp only at h
    split at h
    · exact absurd h (by simp)
    · exact absurd (Option.some.inj h) (by simp)
  | cons c y =>
    rw [hd] at h
    simp only at h
    split at h
    · rename_i hcond
      obtain ⟨hc, hx, hy, hyd, hle⟩ := hcond
      have hab := Option.some.inj h
      injection hab with ha hb
      refine ⟨(TrimSpace seg).takeWhile isDigit, y, ?_, hx, ?_, hy, hyd, ha.symm, hb.symm, ?_⟩
      · rw [← hc, ← hd, List.takeWhile_append_dropWhile]
      · exact List.all_eq_true.2 fun d hd => List.mem_takeWhile_imp hd
      · rw [← ha, ← hb]; exact hle
    · exact absurd h (by simp)

theorem Atoi_of_digits_fit {s : List Char} (hne : s ≠ []) (hd : s.all isDigit = true)
    (hfit : (digitsValue s : Int) ≤ maxInt) : Atoi s = some (digitsValue s : Int) := by
  rw [Atoi_of_digits hne hd, if_neg]
  unfold maxInt at hfit
  have : ((digitsValue s : Nat) : Int) < 2 ^ 63 := by omega
  have h2 : digitsValue s < 2 ^ 63 := by exact_mod_cast this
  omega

theorem parseLoop_cons_spec {fuel : Nat} {seg : List Char} {segs : List (List Char)}
    {acc : List Int} {d : Segment} (h : specSegment seg = some d) (hf : d.fits)
    (hfuel : d.expand.length < fuel) :
    parseLoop fuel (seg :: segs) acc = parseLoop fuel segs (acc ++ d.expand) := by
  cases d with
  | single n =>
    obtain ⟨hne, hd, hn⟩ := specSegment_single h
    subst hn
    exact parseLoop_cons_single (all_digits_no_minus hd) (Atoi_of_digits_fit hne hd hf)
  | range a b =>
    obtain ⟨x, y, ht, hx, hxd, hy, hyd, ha, hb, hab⟩ := specSegment_range h
    have hbfit : (b : Int) < maxInt := hf
    have hsplit : Split (TrimSpace seg) '-' = [x, y] := by
      rw [ht, Split_append_sep y (all_digits_no_minus hxd),
        Split_of_not_Contains (all_digits_no_minus hyd)]
    have hcont : Contains (TrimSpace seg) '-' = true := by
      rw [ht]; exact Contains_eq_true.2 (by simp)
    have hA : Atoi (TrimSpace x) = some (a : Int) := by
      rw [all_digits_TrimSpace hxd, ha]
      apply Atoi_of_digits_fit hx hxd
      rw [← ha]
      have : (a : Int) ≤ b := by exact_mod_cast hab
      omega
    have hB : Atoi (TrimSpace y) = some (b : Int) := by
      rw [all_digits_TrimSpace hyd, hb]
      apply Atoi_of_digits_fit hy hyd
      rw [← hb]; omega
    have hlen : b + 1 - a < fuel := by
      simpa [Segment.expand] using hfuel
    exact parseLoop_cons_range hcont hsplit hA hB (by exact_mod_cast hab)
      (rangeLoop_range' fuel a b acc hbfit hlen)

theorem specExpand_of_specSegment {seg : List Char} {d : Segment}
    (h : specSegment seg = some d) : specExpand seg = d.expand := by
  simp [specExpand, h]

theorem parseLoop_spec (fuel : Nat) :
    ∀ (segs : List (List Char)) (acc : List Int), (∀ seg ∈ segs, specFits seg) →
      ((segs.map specExpand).flatten).length < fuel →
      parseLoop fuel segs acc = some (acc ++ (segs.map specExpand).flatten, none)
  | [], acc, _, _ => by simp [parseLoop]
  | seg :: segs, acc, hfit, hfuel => by
    have hseg : specFits seg := hfit seg (List.mem_cons_self _ _)
    unfold specFits at hseg
    cases hd : specSegment seg with
    | none => rw [hd] at hseg; exact hseg.elim
    | some d =>
      rw [hd] at hseg
      have hexp := specExpand_of_specSegment hd
      simp only [List.map_cons, List.flatten_cons, List.length_append, hexp] at hfuel ⊢
      rw [parseLoop_cons_spec hd hseg (by omega),
        parseLoop_spec fuel segs _ (fun s hs => hfit s (List.mem_cons_of_mem _ hs)) (by omega),
        List.append_assoc]

/-! ## Ports returned on success are never negative -/

theorem parseLoop_nonneg (fuel : Nat) :
    ∀ (segs : List (List Char)) (acc ports : List Int), (∀ p ∈ acc, (0 : Int) ≤ p) →
      parseLoop fuel segs acc = some (ports, none) → ∀ p ∈ ports, (0 : Int) ≤ p
  | [], acc, ports, hacc, h => by
    have : acc = ports := by simpa [parseLoop] using h
    subst this; exact hacc
  | seg :: segs, acc, ports, hacc, h => by
    rw [parseLoop] at h
    by_cases hc : Contains (TrimSpace seg) '-' = true
    · rw [if_pos hc] at h
      split at h
      · rename_i r0 r1 hs
        have hr0 : Contains r0 '-' = false :=
          Split_piece_not_Contains _ _ r0 (by rw [hs]; simp)
        have hr1 : Contains r1 '-' = false :=
          Split_piece_not_Contains _ _ r1 (by rw [hs]; simp)
        split at h
        · simp at h
        · rename_i start ha
          split at h
          · simp at h
          · rename_i stop hb
            split at h
            · simp at h
            · split at h
              · simp at h
              · rename_i ports1 hr
                have hstart := Atoi_nonneg (Contains_TrimSpace hr0) ha
                have hstop := Atoi_nonneg (Contains_TrimSpace hr1) hb
                have h1 := rangeLoop_nonneg fuel start stop acc ports1 hstart.1 hstop.2 hacc hr
                exact parseLoop_nonneg fuel segs ports1 ports h1 h
      · simp at h
    · rw [if_neg hc] at h
      have hc1 : Contains (TrimSpace seg) '-' = false := by simpa using hc
      split at h
      · simp at h
      · rename_i port ha
        have hp := Atoi_nonneg hc1 ha
        refine parseLoop_nonneg fuel segs (acc ++ [port]) ports ?_ h
        intro p hp1
        rcases List.mem_append.1 hp1 with hp1 | hp1
        · exact hacc p hp1
        · have : p = port := by simpa using hp1
          omega

/-! ## Fail-fast on a malformed segment -/

theorem parseLoop_malformed (fuel : Nat) (seg : List Char) (post : List (List Char))
    (acc : List Int) (h : specMalformed seg = true) :
    ∃ msg, parseLoop fuel (seg :: post) acc = some ([], some msg) := by
  rw [parseLoop]
  unfold specMalformed at h
  simp only at h
  by_cases hc : Contains (TrimSpace seg) '-' = true
  · rw [if_pos hc] at h ⊢
    generalize Split (TrimSpace seg) '-' = sp at h ⊢
    match sp, h with
    | [], _ => exact ⟨_, rfl⟩
    | [_], _ => exact ⟨_, rfl⟩
    | _ :: _ :: _ :: _, _ => exact ⟨_, rfl⟩
    | [x, y], h =>
      simp only at h ⊢
      cases ha : Atoi (TrimSpace x) with
      | none => exact ⟨_, rfl⟩
      | some a =>
        cases hb : Atoi (TrimSpace y) with
        | none => exact ⟨_, rfl⟩
        | some b =>
          rw [ha, hb] at h
          simp only [decide_eq_true_eq] at h
          simp only [if_pos h]
          exact ⟨_, rfl⟩
  · rw [if_neg hc] at h ⊢
    cases ha : Atoi (TrimSpace seg) with
    | none => exact ⟨_, rfl⟩
    | some a => rw [ha] at h; simp at h

/-- Fail-fast, short of the range loop that never ends: when a segment is malformed and the
segments before it are well-formed with numbers that fit, `parseLoop` returns an error and no
ports, whatever follows the malformed segment. -/
theorem parseLoop_failFast (fuel : Nat) (seg : List Char) (post : List (List Char)) :
    ∀ (pre : List (List Char)) (acc : List Int), (∀ s ∈ pre, specFits s) →
      specMalformed seg = true → ((pre.map specExpand).flatten).length < fuel →
      ∃ msg, parseLoop fuel (pre ++ seg :: post) acc = some ([], some msg)
  | [], acc, _, hm, _ => parseLoop_malformed fuel seg post acc hm
  | s :: pre, acc, hfit, hm, hfuel => by
    have hs : specFits s := hfit s (List.mem_cons_self _ _)
    unfold specFits at hs
    cases hd : specSegment s with
    | none => rw [hd] at hs; exact hs.elim
    | some d =>
      rw [hd] at hs
      have hexp := specExpand_of_specSegment hd
      simp only [List.map_cons, List.flatten_cons, List.length_append, hexp] at hfuel
      rw [List.cons_append, parseLoop_cons_spec hd hs (by omega)]
      exact parseLoop_failFast fuel seg post pre _
        (fun t ht => hfit t (List.mem_cons_of_mem _ ht)) hm (by omega)

/-! ## Claims about the port spec parser -/

/-- C1, as stated, fails: the spec `"9223372036854775808"` is one well-formed segment (a
decimal integer, expansion `[9223372036854775808]`), yet `parsePorts` returns an error and no
ports, for every fuel, because `strconv.Atoi` rejects a value that does not fit `int`. -/
theorem parsePorts_wellFormed_counterexample :
    ("9223372036854775808" : String) ≠ "all" ∧
    (∀ seg ∈ Split ("9223372036854775808" : String).toList ',', specWellFormed seg) ∧
    ((Split ("9223372036854775808" : String).toList ',').map specExpand).flatten
      = [9223372036854775808] ∧
    ∀ fuel : Nat, parsePorts fuel "9223372036854775808"
      = some ([], some "无效的端口号: 9223372036854775808") := by
  refine ⟨by decide, by decide, by decide, ?_⟩
  intro fuel
  have hs : Split ("9223372036854775808" : String).toList ',' = ["9223372036854775808".toList] := by
    decide
  have h1 : TrimSpace "9223372036854775808".toList = "9223372036854775808".toList := by decide
  have h2 : Contains "9223372036854775808".toList '-' = false := by decide
  have h3 : Atoi "9223372036854775808".toList = none := by decide
  have hne : ¬ (("9223372036854775808" : String) = "all") := by decide
  rw [parsePorts, if_neg hne, hs, parseLoop]
  simp only [h1, h2, h3, Bool.false_eq_true, if_false]
  rfl

/-- C1 (amended): for every port spec string other than `"all"` whose comma-separated
segments are all well-formed (after trimming, a run of decimal digits `n`, or `a-b` with two
runs of decimal digits and `a ≤ b`), with every number at most `2^63 - 1` and every range end
below `2^63 - 1`, `parsePorts` (and the method of the same name) succeeds, given fuel above the
number of ports, and returns exactly the concatenation, in segment order, of the segments'
expansions; its length is the sum of the segment sizes. -/
theorem parsePorts_wellFormed (s : String) (fuel : Nat) (hall : s ≠ "all")
    (hseg : ∀ seg ∈ Split s.toList ',', specFits seg)
    (hfuel : ((Split s.toList ',').map specExpand).flatten.length < fuel) :
    parsePorts fuel s = some (((Split s.toList ',').map specExpand).flatten, none) ∧
    PortScanner.parsePorts fuel s = some (((Split s.toList ',').map specExpand).flatten, none) ∧
    (((Split s.toList ',').map specExpand).flatten).length
      = ((Split s.toList ',').map (fun seg => (specExpand seg).length)).sum := by
  have h := parseLoop_spec fuel (Split s.toList ',') [] hseg hfuel
  rw [List.nil_append] at h
  refine ⟨?_, ?_, ?_⟩
  · rw [parsePorts, if_neg hall, h]
  · rw [PortScanner.parsePorts, if_neg hall, h]
  · rw [List.length_flatten, List.map_map]
    rfl

/-- Witness for `parsePorts_wellFormed`: the specs `"80,443"`, `"1-100"`, `"80,80"` and
`"80,443, 7-9 ,80"`. -/
theorem parsePorts_wellFormed_witness :
    (("80,443" : String) ≠ "all" ∧ (∀ seg ∈ Split ("80,443" : String).toList ',', specFits seg) ∧
      parsePorts 3 "80,443" = some ([80, 443], none)) ∧
    (parsePorts 101 "1-100"
        = some (List.map (fun k : Nat => (k : Int)) (List.range' 1 100), none) ∧
      (List.map (fun k : Nat => (k : Int)) (List.range' 1 100)).length = 100) ∧
    parsePorts 3 "80,80" = some ([80, 80], none) ∧
    parsePorts 7 "80,443, 7-9 ,80" = some ([80, 443, 7, 8, 9, 80], none) :=
  ⟨⟨by decide, by decide,
      (parsePorts_wellFormed "80,443" 3 (by decide) (by decide) (by decide)).1⟩,
    ⟨(parsePorts_wellFormed "1-100" 101 (by decide) (by decide) (by decide)).1, by decide⟩,
    (parsePorts_wellFormed "80,80" 3 (by decide) (by decide) (by decide)).1,
    (parsePorts_wellFormed "80,443, 7-9 ,80" 7 (by decide) (by decide) (by decide)).1⟩

/-- C2, evaluated at the spec `"1-9223372036854775807,abc"`: its segment `abc` is malformed,
but the range loop of the first segment never ends (its counter wraps at the largest `int`),
so `parsePorts` returns nothing, whatever the fuel. The claim's own examples `"abc"`,
`"100-50"`, `"1-2-3"` and `"80,abc"` do fail with an error and no ports. -/
theorem parsePorts_failFast_diverges :
    (("1-9223372036854775807,abc" : String) ≠ "all" ∧
      (∃ seg ∈ Split ("1-9223372036854775807,abc" : String).toList ',',
        specMalformed seg = true) ∧
      ∀ fuel : Nat, parsePorts fuel "1-9223372036854775807,abc" = none) ∧
    (∀ fuel : Nat, parsePorts fuel "abc" = some ([], some "无效的端口号: abc")) ∧
    (∀ fuel : Nat, parsePorts fuel "100-50" = some ([], some "起始端口不能大于结束端口: 100-50")) ∧
    (∀ fuel : Nat, parsePorts fuel "1-2-3" = some ([], some "无效的端口范围: 1-2-3")) ∧
    (∀ fuel : Nat, parsePorts fuel "80,abc" = some ([], some "无效的端口号: abc")) := by
  refine ⟨⟨by decide, ⟨"abc".toList, by decide, by decide⟩, ?_⟩, ?_, ?_, ?_, ?_⟩
  · intro fuel
    have hne : ¬ (("1-9223372036854775807,abc" : String) = "all") := by decide
    have hs : Split ("1-9223372036854775807,abc" : String).toList ','
        = ["1-9223372036854775807".toList, "abc".toList] := by decide
    rw [parsePorts, if_neg hne, hs]
    have hc : Contains (TrimSpace "1-9223372036854775807".toList) '-' = true := by decide
    have hsp : Split (TrimSpace "1-9223372036854775807".toList) '-'
        = ["1".toList, "9223372036854775807".toList] := by decide
    have ha : Atoi (TrimSpace "1".toList) = some 1 := by decide
    have hb : Atoi (TrimSpace "9223372036854775807".toList) = some maxInt := by decide
    exact parseLoop_cons_diverge hc hsp ha hb (by decide)
      (rangeLoop_maxInt fuel 1 [] (by decide))
  · intro fuel; rfl
  · intro fuel; rfl
  · intro fuel; rfl
  · intro fuel; rfl

/-- C3: `parsePorts` (and the method of the same name) applied to `"all"` succeeds, for every
fuel, with exactly the sixteen ports 21, 22, 23, 25, 53, 80, 110, 143, 443, 993, 995, 3389,
5432, 3306, 6379, 27017 in that order, so 5432 precedes 3306. -/
theorem parsePorts_all (fuel : Nat) :
    parsePorts fuel "all"
      = some ([21, 22, 23, 25, 53, 80, 110, 143, 443, 993, 995, 3389, 5432, 3306, 6379, 27017],
          none) ∧
    PortScanner.parsePorts fuel "all"
      = some ([21, 22, 23, 25, 53, 80, 110, 143, 443, 993, 995, 3389, 5432, 3306, 6379, 27017],
          none) ∧
    (parsePorts fuel "all").map (fun r => r.1.length) = some 16 :=
  ⟨rfl, rfl, rfl⟩

/-- C10: whenever `parsePorts` (or the method of the same name) succeeds, every returned port
is at least 0: a segment spelling a negative number, such as `-5` or `5--3`, goes to the range
branch and is rejected there. The bound is attained by `"0"`; above, `"70000"` parses, and so
does every number up to the largest `int`, `"9223372036854775807"`. -/
theorem parsePorts_nonneg :
    (∀ (fuel : Nat) (s : String) (ports : List Int),
      parsePorts fuel s = some (ports, none) → ∀ p ∈ ports, (0 : Int) ≤ p) ∧
    (∀ (fuel : Nat) (s : String) (ports : List Int),
      PortScanner.parsePorts fuel s = some (ports, none) → ∀ p ∈ ports, (0 : Int) ≤ p) ∧
    (∀ fuel : Nat, parsePorts fuel "-5" = some ([], some "无效的起始端口: ")) ∧
    (∀ fuel : Nat, parsePorts fuel "5--3" = some ([], some "无效的端口范围: 5--3")) ∧
    (∀ fuel : Nat, parsePorts fuel "0" = some ([0], none)) ∧
    (∀ fuel : Nat, parsePorts fuel "70000" = some ([70000], none)) ∧
    (∀ fuel : Nat, parsePorts fuel "9223372036854775807" = some ([9223372036854775807], none)) := by
  have key : ∀ (fuel : Nat) (s : String) (ports : List Int),
      parsePorts fuel s = some (ports, none) → ∀ p ∈ ports, (0 : Int) ≤ p := by
    intro fuel s ports h
    rw [parsePorts] at h
    by_cases hall : s = "all"
    · rw [if_pos hall] at h
      have hp : commonPorts = ports := by simpa using h
      rw [← hp]
      decide
    · rw [if_neg hall] at h
      exact parseLoop_nonneg fuel _ [] ports (by simp) h
  refine ⟨key, key, ?_, ?_, ?_, ?_, ?_⟩
  · intro fuel; rfl
  · intro fuel; rfl
  · intro fuel; rfl
  · intro fuel; rfl
  · intro fuel; rfl

/-- Witness for `parsePorts_nonneg`: the spec `"22, 80-82"` parses, and its port 81 is not
negative. -/
theorem parsePorts_nonneg_witness :
    parsePorts 4 "22, 80-82" = some ([22, 80, 81, 82], none) ∧ (0 : Int) ≤ 81 :=
  ⟨by decide, parsePorts_nonneg.1 4 "22, 80-82" [22, 80, 81, 82] (by decide) 81 (by decide)⟩

/-! ## Scan engine: results -/

theorem perm_cons_eraseIdx :
    ∀ (l : List Int) (i : Nat) (p : Int), l.get? i = some p → l.Perm (p :: l.eraseIdx i)
  | [], i, p, h => by simp at h
  | a :: l, 0, p, h => by
    have : a = p := by simpa using h
    subst this
    simp
  | a :: l, i + 1, p, h => by
    have h1 : l.get? i = some p := by simpa using h
    have ih := perm_cons_eraseIdx l i p h1
    rw [List.eraseIdx_cons_succ]
    exact (ih.cons a).trans (List.Perm.swap p a _)

theorem scanPort_Port (d : Option String) (host : String) (p : Int) :
    (scanPort d host p).Port = p := by
  cases d <;> rfl

theorem scanPort_Open (d : Option String) (host : String) (p : Int) :
    (scanPort d host p).Open = d.isNone := by
  cases d <;> rfl

theorem criticalSection_results (present : Bool) (total : Nat) (speed : Int)
    (st : EngineState) (r : ScanResult) :
    (criticalSection present total speed st r).results = st.results ++ [r] := by
  unfold criticalSection
  simp only
  split_ifs <;> rfl

theorem criticalSection_completed (present : Bool) (total : Nat) (speed : Int)
    (st : EngineState) (r : ScanResult) :
    (criticalSection present total speed st r).completed = st.completed + 1 := by
  unfold criticalSection
  simp only
  split_ifs <;> rfl

theorem engineLoop_succ (env : Env) (run : Nat) (host : String) (present : Bool)
    (total n : Nat) (pending : List Int) (st : EngineState) (hlen : pending.length = n + 1) :
    ∃ p, pending.get? (env.pick run st.completed % pending.length) = some p ∧
      engineLoop env run host present total (n + 1) pending st
        = engineLoop env run host present total n
            (pending.eraseIdx (env.pick run st.completed % pending.length))
            (criticalSection present total (env.speed run st.completed) st
              (scanPort (env.dial run st.completed p) host p)) := by
  have hlt : env.pick run st.completed % pending.length < pending.length :=
    Nat.mod_lt _ (by omega)
  cases hget : pending.get? (env.pick run st.completed % pending.length) with
  | none =>
    have := List.get?_eq_none.1 hget
    omega
  | some p =>
    refine ⟨p, rfl, ?_⟩
    rw [engineLoop]
    simp only [hget]

theorem engineLoop_results (env : Env) (run : Nat) (host : String) (present : Bool)
    (total : Nat) :
    ∀ (n : Nat) (pending : List Int) (st : EngineState), pending.length = n →
      ∃ new, (engineLoop env run host present total n pending st).results = st.results ++ new ∧
        (new.map (fun r => r.Port)).Perm pending
  | 0, pending, st, hlen => by
    refine ⟨[], by simp [engineLoop], ?_⟩
    have : pending = [] := List.length_eq_zero.1 hlen
    simp [this]
  | n + 1, pending, st, hlen => by
    obtain ⟨p, hget, hstep⟩ := engineLoop_succ env run host present total n pending st hlen
    have hlt : env.pick run st.completed % pending.length < pending.length :=
      Nat.mod_lt _ (by omega)
    have hlen1 : (pending.eraseIdx (env.pick run st.completed % pending.length)).length = n := by
      rw [List.length_eraseIdx, if_pos hlt]; omega
    obtain ⟨new, hres, hperm⟩ := engineLoop_results env run host present total n _
      (criticalSection present total (env.speed run st.completed) st
        (scanPort (env.dial run st.completed p) host p)) hlen1
    refine ⟨scanPort (env.dial run st.completed p) host p :: new, ?_, ?_⟩
    · rw [hstep, hres, criticalSection_results, List.append_assoc, List.singleton_append]
    · rw [List.map_cons, scanPort_Port]
      exact (hperm.cons p).trans (perm_cons_eraseIdx pending _ p hget).symm

theorem scanPortsDirectly_perm (env : Env) (run : Nat) (host : String) (ports : List Int)
    (present : Bool) :
    ((scanPortsDirectly env run host ports present).results.map (fun r => r.Port)).Perm ports := by
  obtain ⟨new, hres, hperm⟩ := engineLoop_results env run host present ports.length
    ports.length ports { results := [], completed := 0, openPorts := 0, sent := [] } rfl
  unfold scanPortsDirectly
  simp only [hres, List.nil_append]
  exact hperm

theorem scanPortsDirectly_length (env : Env) (run : Nat) (host : String) (ports : List Int)
    (present : Bool) :
    (scanPortsDirectly env run host ports present).results.length = ports.length := by
  have h := (scanPortsDirectly_perm env run host ports present).length_eq
  simpa using h

/-! ## Scan engine: progress messages -/

theorem offered_iff_spec (c total : Nat) :
    (c % (if total > 5000 then 100 else 50) = 0 ∨ c = total ∨ (c < 1000 ∧ c % 10 = 0))
      ↔ specOffered c total = true := by
  unfold specOffered specStride
  rw [decide_eq_true_iff]
  split_ifs <;> omega

theorem criticalSection_sent (present : Bool) (total : Nat) (speed : Int)
    (st : EngineState) (r : ScanResult) :
    (criticalSection present total speed st r).sent
      = if (present && specOffered (st.completed + 1) total) = true then
          st.sent ++ [{ MsgType := "progress", Completed := st.completed + 1, Total := total,
                        Percent := (((st.completed + 1) * 100 / total : Nat) : Int),
                        OpenPorts := if r.Open then st.openPorts + 1 else st.openPorts,
                        Speed := speed, BatchInfo := "" }]
        else st.sent := by
  unfold criticalSection
  simp only [offered_iff_spec, Bool.and_eq_true]
  split_ifs <;> rfl

theorem engineLoop_sent (env : Env) (run : Nat) (host : String) (present : Bool)
    (total : Nat) :
    ∀ (n : Nat) (pending : List Int) (st : EngineState), pending.length = n →
      ∃ new, (engineLoop env run host present total n pending st).sent = st.sent ++ new ∧
        new.map (fun m => m.Completed)
          = (List.range' (st.completed + 1) n).filter
              (fun c => present && specOffered c total) ∧
        ∀ m ∈ new, m.Total = total ∧ m.Percent = ((m.Completed * 100 / total : Nat) : Int) ∧
          m.BatchInfo = "" ∧ m.MsgType = "progress"
  | 0, pending, st, _ => ⟨[], by simp [engineLoop], by simp, by simp⟩
  | n + 1, pending, st, hlen => by
    obtain ⟨p, hget, hstep⟩ := engineLoop_succ env run host present total n pending st hlen
    have hlt : env.pick run st.completed % pending.length < pending.length :=
      Nat.mod_lt _ (by omega)
    have hlen1 : (pending.eraseIdx (env.pick run st.completed % pending.length)).length = n := by
      rw [List.length_eraseIdx, if_pos hlt]; omega
    obtain ⟨new, hsent, hmap, hall⟩ := engineLoop_sent env run host present total n _
      (criticalSection present total (env.speed run st.completed) st
        (scanPort (env.dial run st.completed p) host p)) hlen1
    rw [criticalSection_completed] at hmap
    rw [criticalSection_sent] at hsent
    rw [hstep, List.range'_succ, List.filter_cons]
    by_cases hc : (present && specOffered (st.completed + 1) total) = true
    · rw [if_pos hc] at hsent
      rw [if_pos hc]
      refine ⟨{ MsgType := "progress", Completed := st.completed + 1, Total := total,
                Percent := (((st.completed + 1) * 100 / total : Nat) : Int),
                OpenPorts := if (scanPort (env.dial run st.completed p) host p).Open then
                  st.openPorts + 1 else st.openPorts,
                Speed := env.speed run st.completed, BatchInfo := "" } :: new, ?_, ?_, ?_⟩
      · rw [hsent, List.append_assoc, List.singleton_append]
      · rw [List.map_cons, hmap]
      · intro m hm
        rcases List.mem_cons.1 hm with h | h
        · subst h
          exact ⟨rfl, rfl, rfl, rfl⟩
        · exact hall m h
    · rw [if_neg hc] at hsent
      rw [if_neg hc]
      exact ⟨new, hsent, hmap, hall⟩

theorem scanPortsDirectly_sent (env : Env) (run : Nat) (host : String) (ports : List Int)
    (present : Bool) :
    ((scanPortsDirectly env run host ports present).sent.map (fun m => m.Completed)
        = (List.range' 1 ports.length).filter (fun c => present && specOffered c ports.length)) ∧
      ∀ m ∈ (scanPortsDirectly env run host ports present).sent,
        m.Total = ports.length ∧ m.Percent = ((m.Completed * 100 / ports.length : Nat) : Int) ∧
          m.BatchInfo = "" ∧ m.MsgType = "progress" := by
  obtain ⟨new, hsent, hmap, hall⟩ := engineLoop_sent env run host present ports.length
    ports.length ports { results := [], completed := 0, openPorts := 0, sent := [] } rfl
  have hs : (scanPortsDirectly env run host ports present).sent = new := by
    unfold scanPortsDirectly
    simp only [hsent, List.nil_append]
  rw [hs]
  exact ⟨hmap, hall⟩

theorem scanPortsDirectly_Completed_range (env : Env) (run : Nat) (host : String)
    (ports : List Int) (present : Bool) :
    ∀ m ∈ (scanPortsDirectly env run host ports present).sent,
      1 ≤ m.Completed ∧ m.Completed ≤ ports.length := by
  intro m hm
  have h := (scanPortsDirectly_sent env run host ports present).1
  have hmem : m.Completed ∈ (scanPortsDirectly env run host ports present).sent.map
      (fun m => m.Completed) := List.mem_map.2 ⟨m, hm, rfl⟩
  rw [h] at hmem
  have h2 := (List.mem_filter.1 hmem).1
  rw [List.mem_range'_1] at h2
  omega

theorem scanPortsDirectly_sorted (env : Env) (run : Nat) (host : String) (ports : List Int)
    (present : Bool) :
    ((scanPortsDirectly env run host ports present).sent.map (fun m => m.Completed)).Pairwise
      (fun a b => a ≤ b) := by
  rw [(scanPortsDirectly_sent env run host ports present).1]
  apply List.Pairwise.filter
  exact (List.pairwise_lt_range' 1 ports.length).imp (fun h => Nat.le_of_lt h)

/-! ## Every completion order is the order of some environment -/

theorem engineLoop_follows (env : Env) (run : Nat) (host : String) (present : Bool)
    (total : Nat) :
    ∀ (target pending : List Int) (st : EngineState), target.Perm pending →
      (∀ j : Nat, j < target.length →
        env.pick run (st.completed + j) = (scheduleFor pending target).getD j 0) →
      (engineLoop env run host present total target.length pending st).results.map
          (fun r => r.Port)
        = st.results.map (fun r => r.Port) ++ target
  | [], pending, st, _, _ => by simp [engineLoop]
  | t :: ts, pending, st, hperm, hpick => by
    have hlen : pending.length = ts.length + 1 := by
      rw [← hperm.length_eq]; rfl
    have hmem : t ∈ pending := hperm.subset (List.mem_cons_self t ts)
    have hidx : pending.indexOf t < pending.length := List.indexOf_lt_length.2 hmem
    have h0 : env.pick run st.completed = pending.indexOf t := by
      have := hpick 0 (by simp)
      simpa [scheduleFor] using this
    obtain ⟨p, hget, hstep⟩ := engineLoop_succ env run host present total ts.length pending st hlen
    rw [h0, Nat.mod_eq_of_lt hidx] at hget hstep
    have hp : p = t := by
      have h1 : pending.get? (pending.indexOf t) = some t := by
        rw [List.get?_eq_get hidx]
        simp
      rw [h1] at hget
      exact (Option.some.inj hget).symm
    subst hp
    rw [List.length_cons, hstep, List.eraseIdx_indexOf_eq_erase]
    have hperm1 : ts.Perm (pending.erase p) := (List.cons_perm_iff_perm_erase.1 hperm).2
    rw [engineLoop_follows env run host present total ts (pending.erase p) _ hperm1]
    · rw [criticalSection_results, List.map_append, List.map_singleton, scanPort_Port,
        List.append_assoc, List.singleton_append]
    · intro j hj
      rw [criticalSection_completed]
      have := hpick (j + 1) (by simp; omega)
      rw [show st.completed + 1 + j = st.completed + (j + 1) by omega, this]
      simp [scheduleFor]

/-- The environments cover every order of completion: whatever rearrangement `target` of the
ports is wanted, under some scheduler the results come out in that order. -/
theorem scanPortsDirectly_any_order (env : Env) (run : Nat) (host : String)
    (ports target : List Int) (present : Bool) (h : target.Perm ports) :
    (scanPortsDirectly
        { pick := fun _ k => (scheduleFor ports target).getD k 0, dial := env.dial,
          speed := env.speed, batchSpeed := env.batchSpeed, floatPercent := env.floatPercent }
        run host ports present).results.map (fun r => r.Port) = target := by
  unfold scanPortsDirectly
  simp only
  rw [← h.length_eq, engineLoop_follows _ run host present target.length target ports _ h]
  · simp
  · intro j _
    simp

/-! ## Batch coordinator: chunks and results -/

theorem scanPortsInBatches_eq_batchPrefix (env : Env) (host : String) (ports : List Int)
    (present : Bool) :
    scanPortsInBatches env host ports present
      = batchPrefix env host ports present ((ports.length + 1000 - 1) / 1000) := rfl

theorem batchPrefix_succ (env : Env) (host : String) (ports : List Int) (present : Bool)
    (k : Nat) :
    batchPrefix env host ports present (k + 1)
      = batchBody env host ports present ports.length 1000 ((ports.length + 1000 - 1) / 1000)
          (batchPrefix env host ports present k) k := by
  unfold batchPrefix
  rw [List.range_succ, List.foldl_append]
  rfl

theorem slice_chunk (ports : List Int) (i : Nat) :
    slice ports (i * 1000) (if i * 1000 + 1000 > ports.length then ports.length else i * 1000 + 1000)
      = (ports.drop (i * 1000)).take 1000 := by
  unfold slice
  split_ifs with h
  · rw [List.take_of_length_le (by rw [List.length_drop]),
      List.take_of_length_le (by rw [List.length_drop]; omega)]
  · congr 1
    omega

theorem slice_min (ports : List Int) (i : Nat) :
    slice ports (1000 * i) (min (1000 * (i + 1)) ports.length)
      = (ports.drop (i * 1000)).take 1000 := by
  rw [← slice_chunk]
  congr 1
  · omega
  · split_ifs <;> omega

theorem flatten_chunks (ports : List Int) :
    ∀ k : Nat, ((List.range k).map (fun i => (ports.drop (i * 1000)).take 1000)).flatten
      = ports.take (k * 1000)
  | 0 => by simp
  | k + 1 => by
    rw [List.range_succ, List.map_append, List.flatten_append, flatten_chunks ports k,
      Nat.succ_mul, List.take_add]
    simp

theorem batchPrefix_chunks (env : Env) (host : String) (ports : List Int) (present : Bool) :
    ∀ k : Nat, (batchPrefix env host ports present k).chunks
      = (List.range k).map (fun i => (ports.drop (i * 1000)).take 1000)
  | 0 => rfl
  | k + 1 => by
    rw [batchPrefix_succ, List.range_succ, List.map_append, ← batchPrefix_chunks env host ports
      present k]
    unfold batchBody
    simp only [slice_chunk, List.map_cons, List.map_nil]

theorem batchPrefix_allResults (env : Env) (host : String) (ports : List Int)
    (present : Bool) :
    ∀ k : Nat, (batchPrefix env host ports present k).allResults
      = ((List.range k).map (fun i =>
          (scanPortsDirectly env i host ((ports.drop (i * 1000)).take 1000) present).results)).flatten
  | 0 => rfl
  | k + 1 => by
    rw [batchPrefix_succ, List.range_succ, List.map_append, List.flatten_append,
      ← batchPrefix_allResults env host ports present k]
    unfold batchBody
    simp only [slice_chunk, List.map_cons, List.map_nil, List.flatten_cons, List.flatten_nil,
      List.append_nil]

theorem batchPrefix_perm (env : Env) (host : String) (ports : List Int) (present : Bool) :
    ∀ k : Nat, ((batchPrefix env host ports present k).allResults.map (fun r => r.Port)).Perm
      (ports.take (k * 1000))
  | 0 => by simp [batchPrefix]
  | k + 1 => by
    rw [batchPrefix_allResults, List.range_succ, List.map_append, List.flatten_append,
      ← batchPrefix_allResults env host ports present k, List.map_append, Nat.succ_mul,
      List.take_add]
    refine (batchPrefix_perm env host ports present k).append ?_
    simp only [List.map_cons, List.map_nil, List.flatten_cons, List.flatten_nil, List.append_nil]
    exact scanPortsDirectly_perm env k host _ present

theorem batchPrefix_length (env : Env) (host : String) (ports : List Int) (present : Bool)
    (k : Nat) :
    (batchPrefix env host ports present k).allResults.length = min (k * 1000) ports.length := by
  have h := (batchPrefix_perm env host ports present k).length_eq
  rw [List.length_map, List.length_take] at h
  exact h

theorem take_batches (ports : List Int) :
    ports.take ((ports.length + 1000 - 1) / 1000 * 1000) = ports := by
  apply List.take_of_length_le
  omega

/-! ## Batch coordinator: progress messages -/

theorem batchPrefix_sent (env : Env) (host : String) (ports : List Int) (present : Bool) :
    ∀ k : Nat, (batchPrefix env host ports present k).sent
      = ((List.range k).map (batchBlock env host ports present)).flatten
  | 0 => rfl
  | k + 1 => by
    rw [batchPrefix_succ, List.range_succ, List.map_append, List.flatten_append,
      ← batchPrefix_sent env host ports present k]
    unfold batchBody batchBlock
    simp only [slice_chunk, List.map_cons, List.map_nil, List.flatten_cons, List.flatten_nil,
      List.append_nil]
    cases present <;> simp

theorem batchLabel_ne_empty (a b : Nat) : batchLabel a b ≠ "" := by
  intro h
  have h1 := congrArg String.length h
  unfold batchLabel at h1
  simp only [String.length_append] at h1
  have h2 : ("批次 " : String).length = 3 := by decide
  have h3 : ("" : String).length = 0 := by decide
  omega

theorem isBoundary_start (env : Env) (total tb i start : Nat) (rs : List ScanResult) :
    isBoundary (batchStartMsg env total tb i start rs) = true := by
  simp [isBoundary, batchStartMsg, batchLabel_ne_empty]

theorem isBoundary_done (env : Env) (total tb i stop : Nat) (rs : List ScanResult) :
    isBoundary (batchDoneMsg env total tb i stop rs) = true := by
  simp [isBoundary, batchDoneMsg, batchLabel_ne_empty]

theorem filter_isBoundary_engine (env : Env) (run : Nat) (host : String) (ports : List Int)
    (present : Bool) :
    (scanPortsDirectly env run host ports present).sent.filter isBoundary = [] := by
  rw [List.filter_eq_nil_iff]
  intro m hm
  have h := ((scanPortsDirectly_sent env run host ports present).2 m hm).2.2.1
  simp [isBoundary, h]

theorem batchBlock_le_Total (env : Env) (host : String) (ports : List Int) (present : Bool)
    (i : Nat) (hi : i * 1000 < ports.length) :
    ∀ m ∈ batchBlock env host ports present i, m.Completed ≤ m.Total := by
  intro m hm
  unfold batchBlock at hm
  simp only [List.mem_append] at hm
  rcases hm with (hm | hm) | hm
  · split_ifs at hm
    · rw [List.mem_singleton] at hm
      subst hm
      simp only [batchStartMsg]
      omega
    · simp at hm
  · have h1 := scanPortsDirectly_Completed_range env i host _ present m hm
    have h2 := ((scanPortsDirectly_sent env i host _ present).2 m hm).1
    omega
  · split_ifs at hm with hp hgt
    · rw [List.mem_singleton] at hm
      subst hm
      simp only [batchDoneMsg]
      omega
    · rw [List.mem_singleton] at hm
      subst hm
      simp only [batchDoneMsg]
      omega
    · simp at hm

theorem batchPrefix_le_Total (env : Env) (host : String) (ports : List Int) (present : Bool) :
    ∀ k : Nat, k ≤ (ports.length + 1000 - 1) / 1000 →
      ∀ m ∈ (batchPrefix env host ports present k).sent, m.Completed ≤ m.Total := by
  intro k hk m hm
  rw [batchPrefix_sent, List.mem_flatten] at hm
  obtain ⟨l, hl, hml⟩ := hm
  obtain ⟨i, hi, rfl⟩ := List.mem_map.1 hl
  have hik : i < k := List.mem_range.1 hi
  exact batchBlock_le_Total env host ports present i (by omega) m hml

theorem filter_isBoundary_block (env : Env) (host : String) (ports : List Int)
    (present : Bool) (i : Nat) :
    ((batchBlock env host ports present i).filter isBoundary).map (fun m => m.Completed)
      = if present = true then
          [i * 1000, if i * 1000 + 1000 > ports.length then ports.length else i * 1000 + 1000]
        else [] := by
  unfold batchBlock
  simp only [List.filter_append, filter_isBoundary_engine, List.append_nil]
  cases present
  · simp
  · simp only [if_true, List.filter_cons, isBoundary_start, isBoundary_done, List.filter_nil,
      List.map_append, List.map_cons, List.map_nil, List.singleton_append]
    rfl

theorem batchPrefix_boundary_sorted (env : Env) (host : String) (ports : List Int)
    (present : Bool) :
    ∀ k : Nat, k ≤ (ports.length + 1000 - 1) / 1000 →
      (((batchPrefix env host ports present k).sent.filter isBoundary).map
          (fun m => m.Completed)).Pairwise (fun a b => a ≤ b) ∧
        ∀ c ∈ ((batchPrefix env host ports present k).sent.filter isBoundary).map
          (fun m => m.Completed), c ≤ k * 1000
  | 0, _ => by simp [batchPrefix]
  | k + 1, hk => by
    obtain ⟨ih1, ih2⟩ := batchPrefix_boundary_sorted env host ports present k (by omega)
    have hsent : (batchPrefix env host ports present (k + 1)).sent
        = (batchPrefix env host ports present k).sent ++ batchBlock env host ports present k := by
      rw [batchPrefix_sent, batchPrefix_sent, List.range_succ, List.map_append,
        List.flatten_append]
      simp
    rw [hsent, List.filter_append, List.map_append, filter_isBoundary_block]
    constructor
    · rw [List.pairwise_append]
      refine ⟨ih1, ?_, ?_⟩
      · split_ifs
        · simp; omega
        · simp
        · simp
      · intro a ha b hb
        have := ih2 a ha
        split_ifs at hb <;> simp at hb <;> omega
    · intro c hc
      rcases List.mem_append.1 hc with hc | hc
      · have := ih2 c hc
        omega
      · split_ifs at hc <;> simp at hc <;> omega

/-! ## A batched scan of 1001 ports -/

theorem engineLoop_refused (env : Env) (run : Nat) (host : String) (present : Bool)
    (total : Nat) (hd : ∀ k p, env.dial run k p ≠ none) :
    ∀ (n : Nat) (pending : List Int) (st : EngineState), pending.length = n →
      (∀ r ∈ st.results, r.Open = false) →
      ∀ r ∈ (engineLoop env run host present total n pending st).results, r.Open = false
  | 0, _, st, _, hst => by simpa [engineLoop] using hst
  | n + 1, pending, st, hlen, hst => by
    obtain ⟨p, hget, hstep⟩ := engineLoop_succ env run host present total n pending st hlen
    have hlt : env.pick run st.completed % pending.length < pending.length :=
      Nat.mod_lt _ (by omega)
    have hlen1 : (pending.eraseIdx (env.pick run st.completed % pending.length)).length = n := by
      rw [List.length_eraseIdx, if_pos hlt]; omega
    rw [hstep]
    apply engineLoop_refused env run host present total hd n _ _ hlen1
    intro r hr
    rw [criticalSection_results] at hr
    rcases List.mem_append.1 hr with hr | hr
    · exact hst r hr
    · rw [List.mem_singleton] at hr
      subst hr
      rw [scanPort_Open]
      cases hdial : env.dial run st.completed p with
      | none => exact absurd hdial (hd _ _)
      | some e => rfl

theorem scanPortsDirectly_refused (env : Env) (run : Nat) (host : String) (ports : List Int)
    (present : Bool) (hd : ∀ k p, env.dial run k p ≠ none) :
    ∀ r ∈ (scanPortsDirectly env run host ports present).results, r.Open = false := by
  unfold scanPortsDirectly
  exact engineLoop_refused env run host present ports.length hd ports.length ports _ rfl
    (by simp)

theorem batchPrefix_refused (env : Env) (host : String) (ports : List Int) (present : Bool)
    (hd : ∀ run k p, env.dial run k p ≠ none) (k : Nat) :
    ∀ r ∈ (batchPrefix env host ports present k).allResults, r.Open = false := by
  intro r hr
  rw [batchPrefix_allResults, List.mem_flatten] at hr
  obtain ⟨l, hl, hrl⟩ := hr
  obtain ⟨i, _, rfl⟩ := List.mem_map.1 hl
  exact scanPortsDirectly_refused env i host _ present (hd i) r hrl

theorem ports1001_length : ports1001.length = 1001 := by
  simp [ports1001]

theorem ports1001_batches : (ports1001.length + 1000 - 1) / 1000 = 2 := by
  rw [ports1001_length]

theorem ports1001_last_chunk : ((ports1001.drop (1 * 1000)).take 1000).length = 1 := by
  rw [List.length_take, List.length_drop, ports1001_length]
  rfl

theorem ports1001_sent (env : Env) (host : String) :
    (ScanPortsWithProgress env host ports1001 true).sent
      = batchBlock env host ports1001 true 0 ++ batchBlock env host ports1001 true 1 := by
  unfold ScanPortsWithProgress
  simp only [ports1001_length]
  rw [if_pos (by decide), scanPortsInBatches_eq_batchPrefix, ports1001_batches, batchPrefix_sent]
  simp [List.range_succ]

theorem ports1001_results (env : Env) (host : String) :
    (ScanPortsWithProgress env host ports1001 true).results
      = (batchPrefix env host ports1001 true 2).allResults := by
  unfold ScanPortsWithProgress
  simp only [ports1001_length]
  rw [if_pos (by decide), scanPortsInBatches_eq_batchPrefix, ports1001_batches]

/-! ## Claims about the scan engine -/

/-- C6, as stated, fails: a scan of 5000 ports lies in the claim's middle tier
(`1000 < len ≤ 10000`), for which it promises capacity 500, yet the capacity of the admission
gate is 1000. -/
theorem semaphoreCap_counterexample :
    1000 < (List.replicate 5000 (80 : Int)).length ∧
    (List.replicate 5000 (80 : Int)).length ≤ 10000 ∧
    (scanPortsDirectly Env.allRefused 0 "10.0.0.1" (List.replicate 5000 80) true).semaphoreCap
      = 1000 ∧
    (scanPortsDirectly Env.allRefused 0 "10.0.0.1" (List.replicate 5000 80) true).semaphoreCap
      ≠ 500 := by
  have h : (scanPortsDirectly Env.allRefused 0 "10.0.0.1" (List.replicate 5000 80)
      true).semaphoreCap = 1000 := by
    simp only [scanPortsDirectly, concurrency, List.length_replicate]
    decide
  refine ⟨?_, ?_, h, ?_⟩
  · simp only [List.length_replicate]; decide
  · simp only [List.length_replicate]; decide
  · rw [h]
    decide

/-- C6 (amended): for every port sequence handed to `scanPortsDirectly`, the capacity of the
admission gate is 1000 when `len(ports) ≤ 10000`, 500 when `10000 < len(ports) ≤ 50000`, and
200 when `len(ports) > 50000`. -/
theorem semaphoreCap_tiers (env : Env) (run : Nat) (host : String) (ports : List Int)
    (present : Bool) :
    (ports.length ≤ 10000 →
      (scanPortsDirectly env run host ports present).semaphoreCap = 1000) ∧
    (10000 < ports.length → ports.length ≤ 50000 →
      (scanPortsDirectly env run host ports present).semaphoreCap = 500) ∧
    (50000 < ports.length →
      (scanPortsDirectly env run host ports present).semaphoreCap = 200) := by
  have h : (scanPortsDirectly env run host ports present).semaphoreCap
      = concurrency ports.length := rfl
  rw [h]
  unfold concurrency
  simp only
  refine ⟨fun h1 => ?_, fun h1 h2 => ?_, fun h1 => ?_⟩ <;> split_ifs <;> omega

/-- Witness for `semaphoreCap_tiers`: 5000 ports are scanned with capacity 1000. -/
theorem semaphoreCap_tiers_witness :
    (List.replicate 5000 (80 : Int)).length ≤ 10000 ∧
    (scanPortsDirectly Env.allRefused 0 "10.0.0.1" (List.replicate 5000 80) true).semaphoreCap
      = 1000 :=
  ⟨by simp only [List.length_replicate]; decide,
    (semaphoreCap_tiers Env.allRefused 0 "10.0.0.1" (List.replicate 5000 80) true).1
      (by simp only [List.length_replicate]; decide)⟩

/-- C9: in `scanPortsDirectly` with a session present, the completion counts for which a
progress event is offered are, in order, exactly the `c` in `1..total` with `c = total` or `c`
a multiple of the stride (10 when `c < 1000`, otherwise 100 when `total > 5000` and 50 when
not); so for `1 ≤ c ≤ total` an event is offered for `c` if and only if that holds. Each
offered event carries `Total = total` and `Percent = floor(Completed * 100 / total)`, which
lies in `[0, 100]`. -/
theorem progress_sampling (env : Env) (run : Nat) (host : String) (ports : List Int) :
    ((scanPortsDirectly env run host ports true).sent.map (fun m => m.Completed)
      = (List.range' 1 ports.length).filter (fun c => specOffered c ports.length)) ∧
    (∀ c : Nat, 1 ≤ c → c ≤ ports.length →
      (c ∈ (scanPortsDirectly env run host ports true).sent.map (fun m => m.Completed)
        ↔ (c = ports.length ∨ c % specStride c ports.length = 0))) ∧
    (∀ m ∈ (scanPortsDirectly env run host ports true).sent,
      m.Total = ports.length ∧
      m.Percent = ((m.Completed * 100 / ports.length : Nat) : Int) ∧
      0 ≤ m.Percent ∧ m.Percent ≤ 100) := by
  have h := scanPortsDirectly_sent env run host ports true
  have h1 : (scanPortsDirectly env run host ports true).sent.map (fun m => m.Completed)
      = (List.range' 1 ports.length).filter (fun c => specOffered c ports.length) := by
    rw [h.1]
    simp
  refine ⟨h1, ?_, ?_⟩
  · intro c hc1 hc2
    rw [h1, List.mem_filter, List.mem_range'_1]
    unfold specOffered
    rw [decide_eq_true_iff]
    constructor
    · exact fun hx => hx.2
    · exact fun hx => ⟨⟨hc1, by omega⟩, hx⟩
  · intro m hm
    obtain ⟨ht, hp, _, _⟩ := h.2 m hm
    have hr := scanPortsDirectly_Completed_range env run host ports true m hm
    refine ⟨ht, hp, ?_, ?_⟩
    · rw [hp]; exact Int.ofNat_nonneg _
    · rw [hp]
      have : m.Completed * 100 / ports.length ≤ 100 :=
        Nat.div_le_of_le_mul (by nlinarith [hr.2])
      exact_mod_cast this

/-- Witness for `progress_sampling`: with 25 ports, an event is offered for the 20th
completion. -/
theorem progress_sampling_witness :
    (20 : Nat) ∈ (scanPortsDirectly Env.allRefused 0 "10.0.0.1" (List.replicate 25 80)
      true).sent.map (fun m => m.Completed) :=
  ((progress_sampling Env.allRefused 0 "10.0.0.1" (List.replicate 25 80)).2.1 20 (by decide)
    (by decide)).2 (by decide)

/-! ## Claims about the batch coordinator -/

theorem scanPortsInBatches_chunks_eq (env : Env) (host : String) (ports : List Int)
    (present : Bool) :
    (scanPortsInBatches env host ports present).chunks
      = (List.range ((ports.length + 1000 - 1) / 1000)).map
          (fun i => (ports.drop (i * 1000)).take 1000) := by
  rw [scanPortsInBatches_eq_batchPrefix, batchPrefix_chunks]

theorem chunk_length (ports : List Int) (i : Nat) :
    ((ports.drop (i * 1000)).take 1000).length = min 1000 (ports.length - i * 1000) := by
  rw [List.length_take, List.length_drop]

/-- C4: for every port sequence of length `n > 1000`, `scanPortsInBatches` hands exactly
`ceil(n/1000)` chunks to the scan engine; chunk `i` is `ports[1000*i : min(1000*(i+1), n)]`;
every chunk but the last has 1000 ports, the last has between 1 and 1000, none is empty, and
the chunks concatenated in order are the port sequence. For `n = 2500` the sizes are
1000, 1000, 500. -/
theorem batch_chunks (env : Env) (host : String) (ports : List Int) (present : Bool)
    (hn : 1000 < ports.length) :
    (1000 * ((scanPortsInBatches env host ports present).chunks.length - 1) < ports.length ∧
      ports.length ≤ 1000 * (scanPortsInBatches env host ports present).chunks.length) ∧
    (∀ i : Nat, i < (scanPortsInBatches env host ports present).chunks.length →
      (scanPortsInBatches env host ports present).chunks[i]?
        = some (slice ports (1000 * i) (min (1000 * (i + 1)) ports.length))) ∧
    (∀ (i : Nat) (c : List Int),
      i + 1 < (scanPortsInBatches env host ports present).chunks.length →
      (scanPortsInBatches env host ports present).chunks[i]? = some c → c.length = 1000) ∧
    (∀ c : List Int, (scanPortsInBatches env host ports present).chunks.getLast? = some c →
      1 ≤ c.length ∧ c.length ≤ 1000) ∧
    (∀ c ∈ (scanPortsInBatches env host ports present).chunks, c ≠ []) ∧
    (scanPortsInBatches env host ports present).chunks.flatten = ports ∧
    (ports.length = 2500 →
      (scanPortsInBatches env host ports present).chunks.map List.length = [1000, 1000, 500]) := by
  have hch := scanPortsInBatches_chunks_eq env host ports present
  have hlen : (scanPortsInBatches env host ports present).chunks.length
      = (ports.length + 1000 - 1) / 1000 := by
    rw [hch, List.length_map, List.length_range]
  have hget : ∀ i : Nat, i < (ports.length + 1000 - 1) / 1000 →
      (scanPortsInBatches env host ports present).chunks[i]?
        = some ((ports.drop (i * 1000)).take 1000) := by
    intro i hi
    rw [hch, List.getElem?_map, List.getElem?_range hi]
    rfl
  refine ⟨⟨?_, ?_⟩, ?_, ?_, ?_, ?_, ?_, ?_⟩
  · rw [hlen]; omega
  · rw [hlen]; omega
  · intro i hi
    rw [hlen] at hi
    rw [hget i hi, slice_min]
  · intro i c hi hc
    rw [hlen] at hi
    rw [hget i (by omega)] at hc
    have hc1 := Option.some.inj hc
    rw [← hc1, chunk_length]
    omega
  · intro c hc
    obtain ⟨t, ht⟩ : ∃ t, (ports.length + 1000 - 1) / 1000 = t + 1 :=
      ⟨(ports.length + 1000 - 1) / 1000 - 1, by omega⟩
    rw [hch, ht, List.range_succ, List.map_append, List.map_singleton,
      List.getLast?_append, List.getLast?_singleton] at hc
    have hc1 : (ports.drop (t * 1000)).take 1000 = c := by simpa using hc
    rw [← hc1, chunk_length]
    omega
  · intro c hc
    rw [hch] at hc
    obtain ⟨i, hi, rfl⟩ := List.mem_map.1 hc
    have hi1 := List.mem_range.1 hi
    intro hnil
    have h0 := congrArg List.length hnil
    rw [chunk_length] at h0
    simp only [List.length_nil] at h0
    omega
  · rw [hch, flatten_chunks, take_batches]
  · intro h
    rw [hch, h]
    have h3 : (2500 + 1000 - 1) / 1000 = 3 := by decide
    rw [h3]
    simp only [List.range_succ, List.range_zero, List.nil_append, List.cons_append, List.map_cons,
      List.map_nil, chunk_length, h]
    decide

/-- Witness for `batch_chunks`: 2500 ports are split into chunks of 1000, 1000 and 500. -/
theorem batch_chunks_witness :
    1000 < (List.replicate 2500 (80 : Int)).length ∧
    (scanPortsInBatches Env.allRefused "10.0.0.1" (List.replicate 2500 80) true).chunks.map
      List.length = [1000, 1000, 500] :=
  ⟨by simp only [List.length_replicate]; decide,
    (batch_chunks Env.allRefused "10.0.0.1" (List.replicate 2500 80) true
      (by simp only [List.length_replicate]; decide)).2.2.2.2.2.2
      (by simp only [List.length_replicate])⟩

/-- C5: for every host, port sequence and environment (so for every order in which the
probes finish), the results returned by `ScanPortsWithProgress` are as many as the ports, and
their `Port` fields are a rearrangement of the port sequence with the same multiplicities.
When there are more than 1000 ports, the results are the concatenation, in chunk order, of one
part per chunk, the `Port` fields of part `i` being a rearrangement of
`ports[1000*i : min(1000*(i+1), n)]`. -/
theorem scan_results_rearrangement (env : Env) (host : String) (ports : List Int)
    (present : Bool) :
    (ScanPortsWithProgress env host ports present).results.length = ports.length ∧
    ((ScanPortsWithProgress env host ports present).results.map (fun r => r.Port)).Perm ports ∧
    (1000 < ports.length →
      ∃ part : Nat → List ScanResult,
        (ScanPortsWithProgress env host ports present).results
          = ((List.range ((ports.length + 999) / 1000)).map part).flatten ∧
        ∀ i : Nat, i < (ports.length + 999) / 1000 →
          ((part i).map (fun r => r.Port)).Perm
            (slice ports (1000 * i) (min (1000 * (i + 1)) ports.length))) := by
  have hperm : ((ScanPortsWithProgress env host ports present).results.map
      (fun r => r.Port)).Perm ports := by
    unfold ScanPortsWithProgress
    simp only
    split_ifs
    · have h := batchPrefix_perm env host ports present ((ports.length + 1000 - 1) / 1000)
      rw [take_batches] at h
      exact h
    · exact scanPortsDirectly_perm env 0 host ports present
  refine ⟨?_, hperm, ?_⟩
  · have h := hperm.length_eq
    rw [List.length_map] at h
    exact h
  · intro hn
    refine ⟨fun i => (scanPortsDirectly env i host ((ports.drop (i * 1000)).take 1000)
      present).results, ?_, ?_⟩
    · unfold ScanPortsWithProgress
      simp only
      rw [if_pos hn, scanPortsInBatches_eq_batchPrefix, batchPrefix_allResults]
      have h999 : ports.length + 1000 - 1 = ports.length + 999 := by omega
      rw [h999]
    · intro i _
      rw [slice_min]
      exact scanPortsDirectly_perm env i host _ present

/-- Witness for `scan_results_rearrangement`: the 1001 ports of `ports1001`, scanned in two
chunks. -/
theorem scan_results_rearrangement_witness :
    1000 < ports1001.length ∧
    ∃ part : Nat → List ScanResult,
      (ScanPortsWithProgress Env.allRefused "10.0.0.1" ports1001 true).results
        = ((List.range ((ports1001.length + 999) / 1000)).map part).flatten ∧
      ∀ i : Nat, i < (ports1001.length + 999) / 1000 →
        ((part i).map (fun r => r.Port)).Perm
          (slice ports1001 (1000 * i) (min (1000 * (i + 1)) ports1001.length)) :=
  ⟨by rw [ports1001_length]; decide,
    (scan_results_rearrangement Env.allRefused "10.0.0.1" ports1001 true).2.2
      (by rw [ports1001_length]; decide)⟩

theorem batchBlock_present (env : Env) (host : String) (ports : List Int) (i : Nat) :
    batchBlock env host ports true i
      = batchStartMsg env ports.length ((ports.length + 1000 - 1) / 1000) i (i * 1000)
          (batchPrefix env host ports true i).allResults
        :: (scanPortsDirectly env i host ((ports.drop (i * 1000)).take 1000) true).sent
        ++ [batchDoneMsg env ports.length ((ports.length + 1000 - 1) / 1000) i
              (if i * 1000 + 1000 > ports.length then ports.length else i * 1000 + 1000)
              ((batchPrefix env host ports true i).allResults
                ++ (scanPortsDirectly env i host ((ports.drop (i * 1000)).take 1000)
                      true).results)] := by
  unfold batchBlock
  simp

/-- C7, as stated, fails: in the batched scan of the 1001 ports `1..1001` against an existing
session, the message offered before the second chunk has `Completed = 1000` and the next one,
the scan engine's message for the only port of that chunk, has `Completed = 1`; so the
`Completed` values, in the order offered, are not non-decreasing. -/
theorem progress_monotone_counterexample :
    (∃ (before after : List ProgressMessage) (m1 m2 : ProgressMessage),
      (ScanPortsWithProgress Env.allRefused "10.0.0.1" ports1001 true).sent
        = before ++ m1 :: m2 :: after ∧ m1.Completed = 1000 ∧ m2.Completed = 1) ∧
    ¬ ((ScanPortsWithProgress Env.allRefused "10.0.0.1" ports1001 true).sent.map
        (fun m => m.Completed)).Pairwise (fun a b => a ≤ b) := by
  have hE : (scanPortsDirectly Env.allRefused 1 "10.0.0.1"
      ((ports1001.drop (1 * 1000)).take 1000) true).sent.map (fun m => m.Completed) = [1] := by
    rw [(scanPortsDirectly_sent _ _ _ _ _).1, ports1001_last_chunk]
    decide
  obtain ⟨m2, hm2, hc2⟩ : ∃ m2, (scanPortsDirectly Env.allRefused 1 "10.0.0.1"
      ((ports1001.drop (1 * 1000)).take 1000) true).sent = [m2] ∧ m2.Completed = 1 := by
    generalize (scanPortsDirectly Env.allRefused 1 "10.0.0.1"
      ((ports1001.drop (1 * 1000)).take 1000) true).sent = l at hE
    cases l with
    | nil => simp at hE
    | cons m l1 =>
      cases l1 with
      | nil => exact ⟨m, rfl, by simpa using hE⟩
      | cons m3 l2 => simp at hE
  have hsent := ports1001_sent Env.allRefused "10.0.0.1"
  rw [batchBlock_present Env.allRefused "10.0.0.1" ports1001 1, hm2] at hsent
  have hdecomp : ∃ (before after : List ProgressMessage) (m1 m2 : ProgressMessage),
      (ScanPortsWithProgress Env.allRefused "10.0.0.1" ports1001 true).sent
        = before ++ m1 :: m2 :: after ∧ m1.Completed = 1000 ∧ m2.Completed = 1 :=
    ⟨_, _, _, m2, hsent, rfl, hc2⟩
  refine ⟨hdecomp, ?_⟩
  obtain ⟨before, after, m1, m2, hs, h1, h2⟩ := hdecomp
  rw [hs]
  intro hp
  rw [List.map_append, List.pairwise_append] at hp
  have h3 := hp.2.1
  rw [List.map_cons, List.map_cons, List.pairwise_cons] at h3
  have h4 := h3.1 m2.Completed (List.mem_cons_self _ _)
  omega

/-- C7 (amended): for every scan run by `ScanPortsWithProgress` against an existing session,
every progress event offered has `Completed ≤ Total`. When the scan has at most 1000 ports,
the `Completed` values, in the order offered, are non-decreasing. When it has more than 1000
ports, the `Completed` values of the batch-boundary events alone are non-decreasing, and the
events offered are, chunk after chunk, a boundary event, the scan engine's events for that
chunk, with non-decreasing `Completed` values, and a boundary event. -/
theorem progress_monotone (env : Env) (host : String) (ports : List Int) :
    (∀ m ∈ (ScanPortsWithProgress env host ports true).sent, m.Completed ≤ m.Total) ∧
    (ports.length ≤ 1000 →
      ((ScanPortsWithProgress env host ports true).sent.map (fun m => m.Completed)).Pairwise
        (fun a b => a ≤ b)) ∧
    (1000 < ports.length →
      (((ScanPortsWithProgress env host ports true).sent.filter isBoundary).map
        (fun m => m.Completed)).Pairwise (fun a b => a ≤ b) ∧
      ∃ (opening closing : Nat → ProgressMessage) (inner : Nat → List ProgressMessage),
        (ScanPortsWithProgress env host ports true).sent
          = ((List.range ((ports.length + 999) / 1000)).map
              (fun i => opening i :: inner i ++ [closing i])).flatten ∧
        ∀ i : Nat, isBoundary (opening i) = true ∧ isBoundary (closing i) = true ∧
          (∀ m ∈ inner i, isBoundary m = false) ∧
          ((inner i).map (fun m => m.Completed)).Pairwise (fun a b => a ≤ b)) := by
  have h999 : ports.length + 1000 - 1 = ports.length + 999 := by omega
  refine ⟨?_, ?_, ?_⟩
  · unfold ScanPortsWithProgress
    simp only
    split_ifs
    · rw [scanPortsInBatches_eq_batchPrefix]
      exact batchPrefix_le_Total env host ports true _ (Nat.le_refl _)
    · intro m hm
      have h1 := scanPortsDirectly_Completed_range env 0 host ports true m hm
      have h2 := ((scanPortsDirectly_sent env 0 host ports true).2 m hm).1
      omega
  · intro hn
    unfold ScanPortsWithProgress
    simp only
    rw [if_neg (by omega)]
    exact scanPortsDirectly_sorted env 0 host ports true
  · intro hn
    have hs : (ScanPortsWithProgress env host ports true).sent
        = (batchPrefix env host ports true ((ports.length + 1000 - 1) / 1000)).sent := by
      unfold ScanPortsWithProgress
      simp only
      rw [if_pos hn, scanPortsInBatches_eq_batchPrefix]
    rw [hs]
    refine ⟨(batchPrefix_boundary_sorted env host ports true _ (Nat.le_refl _)).1, ?_⟩
    refine ⟨fun i => batchStartMsg env ports.length ((ports.length + 1000 - 1) / 1000) i
        (i * 1000) (batchPrefix env host ports true i).allResults,
      fun i => batchDoneMsg env ports.length ((ports.length + 1000 - 1) / 1000) i
        (if i * 1000 + 1000 > ports.length then ports.length else i * 1000 + 1000)
        ((batchPrefix env host ports true i).allResults
          ++ (scanPortsDirectly env i host ((ports.drop (i * 1000)).take 1000) true).results),
      fun i => (scanPortsDirectly env i host ((ports.drop (i * 1000)).take 1000) true).sent,
      ?_, ?_⟩
    · rw [batchPrefix_sent, h999]
      congr 2
    · intro i
      refine ⟨isBoundary_start _ _ _ _ _ _, isBoundary_done _ _ _ _ _ _, ?_, ?_⟩
      · intro m hm
        have h := ((scanPortsDirectly_sent env i host _ true).2 m hm).2.2.1
        simp [isBoundary, h]
      · exact scanPortsDirectly_sorted env i host _ true

/-- Witness for `progress_monotone`: a scan of three ports. -/
theorem progress_monotone_witness :
    ([22, 80, 9999] : List Int).length ≤ 1000 ∧
    ((ScanPortsWithProgress Env.allRefused "10.0.0.1" [22, 80, 9999] true).sent.map
      (fun m => m.Completed)).Pairwise (fun a b => a ≤ b) :=
  ⟨by decide, (progress_monotone Env.allRefused "10.0.0.1" [22, 80, 9999]).2.1 (by decide)⟩

/-- C8, evaluated on the batched scan of the 1001 ports `1..1001` with every dial refused:
no result is open, yet the last batch-boundary event, offered after chunk 2 of 2, has
`OpenPorts = 1001`, the number of results. -/
theorem batch_OpenPorts_counts_results :
    ((ScanPortsWithProgress Env.allRefused "10.0.0.1" ports1001 true).results.filter
      (fun r => r.Open)).length = 0 ∧
    ((ScanPortsWithProgress Env.allRefused "10.0.0.1" ports1001 true).sent.getLast?).map
      (fun m => (m.BatchInfo, m.OpenPorts)) = some ("批次 2/2", 1001) := by
  constructor
  · rw [ports1001_results, List.length_eq_zero, List.filter_eq_nil_iff]
    intro r hr
    have h := batchPrefix_refused Env.allRefused "10.0.0.1" ports1001 true
      (fun _ _ _ => by simp [Env.allRefused]) 2 r hr
    simp [h]
  · rw [ports1001_sent, batchBlock_present Env.allRefused "10.0.0.1" ports1001 1,
      ← List.append_assoc, List.getLast?_append, List.getLast?_singleton]
    simp only [Option.map_some', batchDoneMsg, List.length_append,
      batchPrefix_length, scanPortsDirectly_length, ports1001_last_chunk, ports1001_batches,
      ports1001_length]
    decide

end PortScan
